import Mathlib

/-!
Verification of the PATH Inspector core (`paths.py`): classifier,
duplicate/shadow analyzer, snapshot builder, suggestion engine and the
fix-session actions, shallowly embedded over an explicit filesystem model.

Paths and PATH strings are POSIX style: the path separator is `'/'` and the
path-list separator (`os.pathsep`) is `':'`.
-/

set_option maxHeartbeats 1000000

namespace PathInspector

/-! ## String primitives (List Char based, mirroring Python's `str` methods) -/

/-- `isPrefL a b`: the list `a` is a prefix of `b` (Python `str.startswith`). -/
def isPrefL : List Char → List Char → Bool
  | [], _ => true
  | _ :: _, [] => false
  | a :: as, b :: bs => a == b && isPrefL as bs

/-- Python's substring test `n in h` on character lists. -/
def subL (n : List Char) : List Char → Bool
  | [] => isPrefL n []
  | c :: t => isPrefL n (c :: t) || subL n t

/-- Python `haystack.startswith(q)` for strings. -/
def startsW (s q : String) : Bool := isPrefL q.data s.data

/-- Python `str.startswith(tuple_of_prefixes)`. -/
def startsAny (s : String) (ps : List String) : Bool := ps.any (fun q => startsW s q)

/-- Python `n in h` for strings. -/
def containsS (h n : String) : Bool := subL n.data h.data

/-- Python `str.lower` (the tool only handles ASCII path strings). -/
def lowerS (s : String) : String := ⟨s.data.map Char.toLower⟩

/-- A first-match scan, as Python's short-circuiting searches do. -/
def findO {α : Type} (p : α → Bool) : List α → Option α
  | [] => none
  | a :: l => if p a then some a else findO p l

/-- Index of the first element satisfying `p`, if any. -/
def findIdxO {α : Type} (p : α → Bool) : List α → Option Nat
  | [] => none
  | a :: l => if p a then some 0 else (findIdxO p l).map (· + 1)

/-- Python `s.split(sep)` for a one-character separator: `"".split(sep) = [""]`,
and every separator occurrence cuts. -/
def pySplit (sep : Char) : List Char → List (List Char)
  | [] => [[]]
  | c :: t =>
    let r := pySplit sep t
    if c = sep then [] :: r
    else
      match r with
      | h :: rs => (c :: h) :: rs
      | [] => [[c]]

/-- Python `sep.join(pieces)` for a one-character separator. -/
def joinL (sep : Char) : List (List Char) → List Char
  | [] => []
  | [x] => x
  | x :: xs => x ++ sep :: joinL sep xs

/-- A single-quote character as a string (used by classifier reason texts). -/
def sq : String := ⟨[Char.ofNat 39]⟩

/-! ## `os.path.normpath` (POSIX rules, as used by `normalize_dir`) -/

/-- One step of `normpath`'s component scan: drop `""` and `"."`, collapse
`".."` against a previous component when legal. -/
def normStep (slashes : Nat) (acc : List (List Char)) (comp : List Char) : List (List Char) :=
  if comp = [] || comp = ['.'] then acc
  else if comp ≠ ['.', '.'] || (slashes = 0 && acc = []) || (acc ≠ [] && acc.getLast? = some ['.', '.']) then
    acc ++ [comp]
  else if acc ≠ [] then acc.dropLast
  else acc

/-- `os.path.normpath` for POSIX paths (source: `normalize_dir`'s fallback). -/
def normpath (path : String) : String :=
  if path = "" then "." else
  let l := path.data
  let slashes : Nat :=
    if isPrefL "//".data l && !(isPrefL "///".data l) then 2
    else if isPrefL "/".data l then 1 else 0
  let comps := pySplit '/' l
  let newComps := comps.foldl (normStep slashes) []
  let out := List.replicate slashes '/' ++ joinL '/' newComps
  if out = [] then "." else ⟨out⟩

/-! ## Classifier (source: `classify` and its rule tables) -/

def SYSTEM_PREFIXES : List String :=
  ["/System", "/bin", "/sbin", "/usr/bin", "/usr/sbin", "/usr/libexec"]

def BREW_PREFIXES : List String :=
  ["/opt/homebrew", "/usr/local"]

def DEV_PREFIXES : List String :=
  ["/Applications/Xcode.app", "/Library/Developer", "/Developer"]

/-- `KEYWORD_BUCKETS`, in the source's (insertion-order) iteration order.
`home` stands for the module-level `HOME = str(Path.home())`. -/
def KEYWORD_BUCKETS (home : String) : List (String × List String) :=
  [ ("Python", ["pyenv", "conda", "anaconda", "miniconda", "venv", "virtualenv", "pipx", "python"]),
    ("Node.js", ["nvm", "node", "npm", "yarn", "pnpm"]),
    ("Java", ["java", "jdk", "jre", "maven", "gradle"]),
    ("Go", ["/go", "gobin", "golang"]),
    ("Rust", ["cargo", ".cargo", "rustup"]),
    ("Ruby", ["rbenv", "rvm", "ruby", "bundler"]),
    ("Android", ["android", "sdk"]),
    ("Dotfiles / User Local", [home, "~", ".local", ".dotfiles"]),
    ("Cloud / DevOps", ["aws", "gcloud", "google-cloud-sdk", "azure", "az", "kubectl", "helm", "terraform"]),
    ("Databricks", ["databricks"]),
    ("Databases", ["postgres", "mysql", "mariadb", "mongo", "redis"]) ]

/-- `_contains_any(haystack_lower, needles)`: first needle whose lowercase form
occurs in the (already lowercased) haystack. -/
def containsAnyK (haystackLower : String) (needles : List String) : Option String :=
  findO (fun n => subL (lowerS n).data haystackLower.data) needles

/-- The keyword-bucket scan of `classify`: first bucket with a hit, together
with the matched needle. -/
def bucketHitGo (pl : String) : List (String × List String) → Option (String × String)
  | [] => none
  | (cat, needles) :: rest =>
    match containsAnyK pl needles with
    | some hit => some (cat, hit)
    | none => bucketHitGo pl rest

def bucketHit (home pl : String) : Option (String × String) :=
  bucketHitGo pl (KEYWORD_BUCKETS home)

/-- `re.search(r"/versions/node/v\d+", pl)` matches at the head of `l`. -/
def nodeVerAt (l : List Char) : Bool :=
  let pat := "/versions/node/v".data
  isPrefL pat l &&
    (match l.drop pat.length with
     | d :: _ => d.isDigit
     | [] => false)

/-- `re.search(r"/versions/node/v\d+", pl)` matches somewhere in `l`. -/
def hasNodeVer : List Char → Bool
  | [] => false
  | c :: t => nodeVerAt (c :: t) || hasNodeVer t

/-- `re.search(r"/python\d+(\.\d+)?/", pl)` matches at the head of `l`. -/
def pyVerAt (l : List Char) : Bool :=
  let pat := "/python".data
  if isPrefL pat l then
    let r := l.drop pat.length
    let ds := r.takeWhile Char.isDigit
    if ds.isEmpty then false else
      match r.drop ds.length with
      | '/' :: _ => true
      | '.' :: r2 =>
        let ds2 := r2.takeWhile Char.isDigit
        if ds2.isEmpty then false else
          match r2.drop ds2.length with
          | '/' :: _ => true
          | _ => false
      | _ => false
  else false

/-- `re.search(r"/python\d+(\.\d+)?/", pl)` matches somewhere in `l`. -/
def hasPyVer : List Char → Bool
  | [] => false
  | c :: t => pyVerAt (c :: t) || hasPyVer t

/-- Substring test used inside the Homebrew rule:
`"/Cellar/" in p or "/cellar/" in pl`. -/
def cellarTest (p : String) : Bool :=
  containsS p "/Cellar/" || containsS (lowerS p) "/cellar/"

/-- `classify(path)` from the source: returns `(category, reason)`.
`home` is the module-level `HOME` constant baked into `KEYWORD_BUCKETS`. -/
def classify (home : String) (path : String) : String × String :=
  let p := path
  let pl := lowerS p
  if startsAny p SYSTEM_PREFIXES then ("System", "system prefix")
  else if startsAny p DEV_PREFIXES then ("Apple / Xcode / Developer", "developer tools prefix")
  else if startsAny p BREW_PREFIXES then
    if cellarTest p then ("Homebrew", "brew cellar") else ("Homebrew", "brew prefix")
  else
    match bucketHit home pl with
    | some (cat, hit) => (cat, "matched " ++ sq ++ hit ++ sq)
    | none =>
      if hasNodeVer pl.data then ("Node.js", "node versioned path")
      else if hasPyVer pl.data then ("Python", "python versioned path")
      else ("Other / Unknown", "no match")

/-! ## Filesystem model

The snapshot builder's only environment dependencies: `os.path.expandvars` +
`Path.expanduser` (`expand`), `Path.exists` (`pexists`), `Path.is_dir`
(`isDir`), `Path.resolve` (`resolve`), the module-level `HOME` constant, and
— for the suggestion engine — `sorted(dir.iterdir())` as a sorted list of
child names (`childNames`). All claims quantify over arbitrary models, and
witnesses instantiate concrete ones. -/

structure FS where
  expand : String → String
  pexists : String → Bool
  isDir : String → Bool
  resolve : String → String
  home : String
  childNames : String → List String

/-- `normalize_dir(p)`: expand, then resolve if the path exists, else
`os.path.normpath` of the expanded form. -/
def normalize_dir (fs : FS) (p : String) : String :=
  let expanded := fs.expand p
  if fs.pexists expanded then fs.resolve expanded else normpath expanded

/-! ## PathEntry and the snapshot builder (`analyze_path`) -/

/-- The `Entry` dataclass. The source field `exists` is named `pexists` here
(`exists` is reserved elsewhere in this development's logic). -/
structure Entry where
  index : Nat
  raw : String
  expanded : String
  normalized : String
  pexists : Bool
  is_dir : Bool
  category : String
  reason : String
  duplicate_of : Option Nat
  shadowed_by : Option Nat
deriving Repr, DecidableEq, Inhabited

/-- Lookup in the `seen` dict (`normalized -> first index`), modelled as an
insertion-ordered association list. -/
def lookupSeen (seen : List (String × Nat)) (v : String) : Option Nat :=
  (findO (fun kv => kv.1 == v) seen).map (·.2)

/-- The entry-construction loop of `analyze_path` (duplicate pass included):
`seen` maps a normalized value to the first 1-based index where it occurred,
`idx` is the 1-based index of the next segment. -/
def buildGo (fs : FS) : List (String × Nat) → Nat → List String → List Entry
  | _, _, [] => []
  | seen, idx, raw :: rest =>
    let expanded := fs.expand raw
    let normalized := normalize_dir fs raw
    let ex := fs.pexists expanded
    let dirb := if ex then fs.isDir expanded else false
    let cr := classify fs.home normalized
    let dup := lookupSeen seen normalized
    let seen' := if (lookupSeen seen normalized).isSome then seen else seen ++ [(normalized, idx)]
    { index := idx, raw := raw, expanded := expanded, normalized := normalized,
      pexists := ex, is_dir := dirb, category := cr.1, reason := cr.2,
      duplicate_of := dup, shadowed_by := none } :: buildGo fs seen' (idx + 1) rest

/-- Python `a.rstrip(os.sep)`: strip trailing `'/'` characters. -/
def rstripSep (s : String) : String := ⟨(s.data.reverse.dropWhile (fun c => c = '/')).reverse⟩

/-- The ancestor test of `compute_shadowing`:
`b != a and b.startswith(a.rstrip(os.sep) + os.sep)`. -/
def shadowTest (a b : String) : Bool :=
  b != a && isPrefL (rstripSep a ++ "/").data b.data

/-- The scan of `compute_shadowing`: for each entry, find the first earlier
entry (by scan order `j = 0, 1, ...`) whose normalized value passes
`shadowTest`, and record that entry's `index`. `prior` carries the
`(normalized, index)` pairs of already-scanned entries, in order. -/
def csGo : List (String × Nat) → List Entry → List Entry
  | _, [] => []
  | prior, e :: rest =>
    let e' :=
      match findO (fun ab => shadowTest ab.1 e.normalized) prior with
      | some ab => { e with shadowed_by := some ab.2 }
      | none => e
    e' :: csGo (prior ++ [(e.normalized, e.index)]) rest

/-- `compute_shadowing(entries)`. -/
def compute_shadowing (entries : List Entry) : List Entry := csGo [] entries

/-- `raw_path.split(os.pathsep) if raw_path else []`. -/
def segsOf (raw_path : String) : List String :=
  if raw_path = "" then [] else (pySplit ':' raw_path.data).map (fun l => (⟨l⟩ : String))

/-- `analyze_path()`'s entry list, with the PATH value passed explicitly
(the source reads `os.environ["PATH"]`; the environment read is modelled at
the call sites, see `reanalyze_with`). The category grouping is a projection
of this list and is not needed by any claim. -/
def analyze_path (fs : FS) (raw_path : String) : List Entry :=
  compute_shadowing (buildGo fs [] 1 (segsOf raw_path))

/-- `rebuild_path(parts)` from the fix session:
`os.pathsep.join([p for p in parts if p])`. -/
def rebuild_path (parts : List String) : String :=
  ⟨joinL ':' ((parts.filter (fun p => p ≠ "")).map String.data)⟩

/-- The fix session's initial segment list (source line
`current_parts = [p for p in (raw_path.split(os.pathsep) if raw_path else []) if p]`). -/
def initialParts (raw_path : String) : List String :=
  (segsOf raw_path).filter (fun p => p ≠ "")

/-- Broken-entry test used throughout the source:
`not e.exists or not e.is_dir`. -/
def isBroken (e : Entry) : Bool := !(e.pexists && e.is_dir)

/-- Brokenness of a raw segment, as `analyze_path` computes it
(`exists`/`is_dir` of the expanded path). -/
def isBrokenSeg (fs : FS) (s : String) : Bool :=
  let ex := fs.pexists (fs.expand s)
  !(ex && (if ex then fs.isDir (fs.expand s) else false))

/-- Broken count of the snapshot built from a PATH string. -/
def brokenCount (fs : FS) (raw_path : String) : Nat :=
  ((analyze_path fs raw_path).filter isBroken).length

/-! ## Path component operations (`pathlib.PurePosixPath` on normalized strings) -/

/-- The path components `pathlib` keeps: split on `'/'`, dropping empty and
`"."` components. -/
def cleanComps (s : String) : List (List Char) :=
  (pySplit '/' s.data).filter (fun c => c != [] && c != ['.'])

/-- `Path(s).name`. -/
def pathName (s : String) : String :=
  match (cleanComps s).getLast? with
  | some c => ⟨c⟩
  | none => ""

/-- `Path(s).parent` (POSIX; the double-slash root is modelled as `"/"`). -/
def pathParent (s : String) : String :=
  let abs := isPrefL "/".data s.data
  let comps := cleanComps s
  let ini := comps.dropLast
  if ini = [] then (if abs then "/" else ".")
  else (if abs then "/" else "") ++ (⟨joinL '/' ini⟩ : String)

/-- `parent / name` (`pathlib` join for a plain name). -/
def joinPath (d n : String) : String :=
  if d = "." then n
  else if d.data.getLast? = some '/' then d ++ n
  else d ++ "/" ++ n

/-- Python `str.strip()` (whitespace strip on both ends). -/
def stripWS (s : String) : String :=
  ⟨((s.data.dropWhile Char.isWhitespace).reverse.dropWhile Char.isWhitespace).reverse⟩

/-! ## Suggestion engine (source: `suggest_alternatives`) -/

/-- The closest-existing-ancestor walk (`while True: ... cursor = cursor.parent`),
with fuel exceeding the longest possible parent chain of the start string. -/
def findAncestorGo (fs : FS) : Nat → String → Option String
  | 0, _ => none
  | fuel + 1, cur =>
    if fs.pexists cur && fs.isDir cur then some cur
    else if pathParent cur == cur then none
    else findAncestorGo fs fuel (pathParent cur)

def findAncestor (fs : FS) (s : String) : Option String :=
  findAncestorGo fs (s.data.length + 2) s

/-- The sibling-name test of step 3:
`name == target_name or name.startswith(target_name) or target_name.startswith(name)`. -/
def nameMatch (tname nm : String) : Bool :=
  nm == tname || startsW nm tname || startsW tname nm

/-- Result of a loop with a possible early `return` out of the function. -/
inductive LoopRes where
  | exit (l : List String)
  | cont (l : List String)
deriving Repr, DecidableEq

/-- Step 3 of `suggest_alternatives`: scan the sorted children of the existing
ancestor, appending resolved matching subdirectories, returning early once
`len(suggestions) >= limit`. -/
def step3Go (fs : FS) (anc tname : String) (limit : Nat) : List String → List String → LoopRes
  | [], acc => .cont acc
  | n :: ns, acc =>
    let child := joinPath anc n
    if !(fs.isDir child) then step3Go fs anc tname limit ns acc
    else if tname != "" && nameMatch tname n then
      let acc' := acc ++ [fs.resolve child]
      if limit ≤ acc'.length then .exit acc'
      else step3Go fs anc tname limit ns acc'
    else step3Go fs anc tname limit ns acc

/-- The inner candidate loop of step 4 (`for candidate in [cur/"bin", cur/"sbin"]`),
generalized to any candidate list: append existing directories' resolved paths
not already present, returning early at the limit. -/
def step4CandGo (fs : FS) (limit : Nat) : List String → List String → LoopRes
  | [], acc => .cont acc
  | c :: cs, acc =>
    if fs.pexists c && fs.isDir c then
      let s := fs.resolve c
      if s ∈ acc then step4CandGo fs limit cs acc
      else
        let acc' := acc ++ [s]
        if limit ≤ acc'.length then .exit acc'
        else step4CandGo fs limit cs acc'
    else step4CandGo fs limit cs acc

/-- Step 4's ancestor walk (`for _ in range(4)` starting at the missing path's
parent). -/
def step4Walk (fs : FS) (limit : Nat) : Nat → String → List String → LoopRes
  | 0, _, acc => .cont acc
  | k + 1, cur, acc =>
    let res :=
      if fs.pexists cur && fs.isDir cur then
        step4CandGo fs limit [joinPath cur "bin", joinPath cur "sbin"] acc
      else .cont acc
    match res with
    | .exit l => .exit l
    | .cont acc' =>
      if pathParent cur == cur then .cont acc'
      else step4Walk fs limit k (pathParent cur) acc'

/-- `suggest_alternatives(broken_path, limit)`. -/
def suggest_alternatives (fs : FS) (broken_path : String) (limit : Nat) : List String :=
  let norm := normalize_dir fs broken_path
  if stripWS norm = "" then []
  else
    let tname := pathName norm
    let parent := pathParent norm
    let s3res :=
      match findAncestor fs norm with
      | some anc => step3Go fs anc tname limit (fs.childNames anc) []
      | none => .cont []
    match s3res with
    | .exit l => l
    | .cont acc =>
      if tname == "bin" || tname == "sbin" then
        match step4Walk fs limit 4 parent acc with
        | .exit l => l
        | .cont acc' => acc'.take limit
      else acc.take limit

/-! Pure (no-early-return) descriptions of the two discovery phases, used to
state what `suggest_alternatives` returns. -/

/-- All step-3 matches, in child order. -/
def suggestStep3 (fs : FS) (broken : String) : List String :=
  let norm := normalize_dir fs broken
  if stripWS norm = "" then []
  else
    let tname := pathName norm
    match findAncestor fs norm with
    | some anc =>
      ((fs.childNames anc).filter
        (fun n => fs.isDir (joinPath anc n) && (tname != "" && nameMatch tname n))).map
        (fun n => fs.resolve (joinPath anc n))
    | none => []

/-- All step-4 candidates (resolved existing `bin`/`sbin` directories along the
4-level walk from the missing path's parent), in discovery order, without
deduplication. -/
def step4Cands (fs : FS) : Nat → String → List String
  | 0, _ => []
  | k + 1, cur =>
    let here :=
      if fs.pexists cur && fs.isDir cur then
        (([joinPath cur "bin", joinPath cur "sbin"]).filter
          (fun c => fs.pexists c && fs.isDir c)).map fs.resolve
      else []
    if pathParent cur == cur then here
    else here ++ step4Cands fs k (pathParent cur)

/-- Append each candidate not already present (`if s not in suggestions`). -/
def dedupAppend (acc : List String) : List String → List String
  | [] => acc
  | c :: cs => if c ∈ acc then dedupAppend acc cs else dedupAppend (acc ++ [c]) cs

/-- The step-4 additions: candidates deduplicated against step 3's results and
against each other. -/
def suggestStep4 (fs : FS) (broken : String) : List String :=
  let norm := normalize_dir fs broken
  if stripWS norm = "" then []
  else
    let tname := pathName norm
    if tname == "bin" || tname == "sbin" then
      let s3 := suggestStep3 fs broken
      (dedupAppend s3 (step4Cands fs 4 (pathParent norm))).drop s3.length
    else []

/-! ## Re-snapshot wrappers (source: `reanalyze_with` and the final
re-grouping in `main`)

The only process-global state the core touches is `os.environ["PATH"]`,
modelled as an explicit `String` state. A body is an arbitrary state
transformer that either returns a value or raises an exception
(`Except ε α`); the wrapper sets PATH to the alternate value, runs the body,
and restores the old value in a `finally` block, so the restore happens on
the normal path and on the exception path alike. -/

/-- `reanalyze_with(path_value)` (fix session). Returns (body outcome, final
PATH environment value). -/
def reanalyze_with {α ε : Type} (body : String → Except ε α × String)
    (envPath : String) (path_value : String) : Except ε α × String :=
  let old := envPath
  let r := body path_value
  (r.1, old)

/-- The final re-grouping in `main` (same set/try/finally/restore shape,
around `analyze_path()` under the proposed PATH). -/
def mainFinalRegroup {α ε : Type} (body : String → Except ε α × String)
    (envPath : String) (raw_path : String) : Except ε α × String :=
  let old := envPath
  let r := body raw_path
  (r.1, old)

/-! ## Fix-session actions (source: `_apply_fix_for_entry`) -/

/-- `"%02d" % n`. -/
def fmt2 (n : Nat) : String := if n < 10 then "0" ++ toString n else toString n

/-- Outcome of one iteration of the Replace-manual input loop (action "3"):
the loop either returns to the command prompt (`backOut`), substitutes and
returns (`replaced`), or re-prompts (`retry`). Each outcome carries the
`parts` list as it stands afterwards. -/
inductive ManualOutcome where
  | backOut (parts : List String)
  | replaced (parts : List String) (logs : List String)
  | retry (parts : List String) (logs : List String)
deriving Repr, DecidableEq

/-- One iteration of action "3" (Replace with a typed directory). `typed` and
`yn` are the stripped user inputs; `mkdir` is the filesystem's
`mkdir(parents=True, exist_ok=True)` behaviour, raising via `.error`. -/
def replaceManualStep (fs : FS) (mkdir : String → Except String Unit) (e : Entry)
    (parts : List String) (typed yn : String) : ManualOutcome :=
  let i0 := e.index - 1
  if lowerS typed == "b" then .backOut parts
  else if typed == "" then .retry parts []
  else
    let norm := normalize_dir fs typed
    if fs.pexists norm && fs.isDir norm then
      .replaced (parts.set i0 typed)
        ["#" ++ fmt2 e.index ++ " REPLACE(manual) | from=" ++ e.normalized ++ " | to=" ++ norm]
    else if lowerS yn == "y" then
      match mkdir norm with
      | .ok _ =>
        .replaced (parts.set i0 typed)
          ["#" ++ fmt2 e.index ++ " REPLACE+MKDIR(manual) | from=" ++ e.normalized ++ " | to=" ++ norm]
      | .error ex =>
        .retry parts
          ["#" ++ fmt2 e.index ++ " MKDIR FAILED | target=" ++ norm ++ " | error=" ++ ex]
    else .retry parts []

/-- Action "5" (Create the directory and keep the entry). Returns the new
`parts` and the log lines; on `mkdir` failure the error is logged and the
function returns normally (the session loop continues). -/
def applyCreateDir (fs : FS) (mkdir : String → Except String Unit) (e : Entry)
    (parts : List String) : List String × List String :=
  let i0 := e.index - 1
  let target := normalize_dir fs e.raw
  match mkdir target with
  | .ok _ => (parts.set i0 e.raw, ["#" ++ fmt2 e.index ++ " MKDIR | created=" ++ target])
  | .error ex =>
    (parts, ["#" ++ fmt2 e.index ++ " MKDIR FAILED | target=" ++ target ++ " | error=" ++ ex])

/-- Action "2" (Remove from PATH): `parts.pop(i0)`. -/
def applyRemove (e : Entry) (parts : List String) : List String × List String :=
  let i0 := e.index - 1
  (parts.eraseIdx i0, ["#" ++ fmt2 e.index ++ " REMOVE | " ++ e.normalized])

end PathInspector

namespace PathInspector

/-- A concrete model: nothing exists; expansion and resolution are identities. -/
def fsNone : FS :=
  { expand := id, pexists := fun _ => false, isDir := fun _ => false,
    resolve := id, home := "/Users/dave", childNames := fun _ => [] }


/-- A concrete model for the suggestion-engine claims: `/a` exists and has the
single subdirectory `hello`. -/
def fsSug : FS :=
  { expand := id,
    pexists := fun s => s == "/" || s == "/a" || s == "/a/hello",
    isDir := fun s => s == "/" || s == "/a" || s == "/a/hello",
    resolve := id, home := "/Users/dave",
    childNames := fun s => if s == "/a" then ["hello"] else [] }


/-! ## Generic list lemmas -/

lemma getQ_lt {α : Type} (l : List α) (n : Nat) (x : α) (h : l.get? n = some x) :
    n < l.length := by
  induction l generalizing n with
  | nil => simp at h
  | cons a t ih =>
    cases n with
    | zero => simp
    | succ m => simpa using ih m (by simpa using h)

lemma lt_getQ {α : Type} (l : List α) (n : Nat) (h : n < l.length) :
    ∃ x, l.get? n = some x := by
  induction l generalizing n with
  | nil => simp at h
  | cons a t ih =>
    cases n with
    | zero => exact ⟨a, rfl⟩
    | succ m => exact ih m (by simpa using h)

lemma getQ_take {α : Type} (l : List α) (n j : Nat) (h : j < n) :
    (l.take n).get? j = l.get? j := by
  induction l generalizing n j with
  | nil => simp
  | cons a t ih =>
    cases n with
    | zero => omega
    | succ m =>
      cases j with
      | zero => simp
      | succ i => simpa using ih m i (by omega)

lemma getQ_map {α β : Type} (f : α → β) (l : List α) (n : Nat) :
    (l.map f).get? n = (l.get? n).map f := by
  induction l generalizing n with
  | nil => simp
  | cons a t ih =>
    cases n with
    | zero => simp
    | succ m => exact ih m

lemma getQ_mem {α : Type} (l : List α) (n : Nat) (x : α) (h : l.get? n = some x) :
    x ∈ l := by
  induction l generalizing n with
  | nil => simp at h
  | cons a t ih =>
    cases n with
    | zero => simp at h; simp [h]
    | succ m => exact List.mem_cons_of_mem a (ih m (by simpa using h))

lemma findO_spec {α : Type} (p : α → Bool) (l : List α) (x : α)
    (h : findO p l = some x) :
    ∃ i, l.get? i = some x ∧ p x = true ∧
      ∀ j y, j < i → l.get? j = some y → p y = false := by
  induction l with
  | nil => simp [findO] at h
  | cons a t ih =>
    by_cases hp : p a = true
    · refine ⟨0, ?_, ?_, ?_⟩
      · simp [findO, hp] at h; simp [h]
      · simp [findO, hp] at h; rw [← h]; exact hp
      · intro j y hj _; omega
    · have h' : findO p t = some x := by
        simpa [findO, hp] using h
      obtain ⟨i, hi, hx, hmin⟩ := ih h'
      refine ⟨i + 1, by simpa using hi, hx, ?_⟩
      intro j y hj hy
      cases j with
      | zero =>
        simp at hy
        rw [← hy]
        exact Bool.eq_false_iff.mpr hp
      | succ m => exact hmin m y (by omega) (by simpa using hy)

lemma findO_complete {α : Type} (p : α → Bool) (l : List α) (i : Nat) (x : α)
    (hget : l.get? i = some x) (hp : p x = true) :
    ∃ y, findO p l = some y := by
  induction l generalizing i with
  | nil => simp at hget
  | cons a t ih =>
    by_cases hpa : p a = true
    · exact ⟨a, by simp [findO, hpa]⟩
    · cases i with
      | zero =>
        simp at hget
        rw [hget] at hpa
        exact absurd hp hpa
      | succ m =>
        obtain ⟨y, hy⟩ := ih m (by simpa using hget)
        exact ⟨y, by simp [findO, hpa, hy]⟩

lemma findIdxO_spec {α : Type} (p : α → Bool) (l : List α) (m : Nat)
    (h : findIdxO p l = some m) :
    ∃ x, l.get? m = some x ∧ p x = true ∧
      ∀ j y, j < m → l.get? j = some y → p y = false := by
  induction l generalizing m with
  | nil => simp [findIdxO] at h
  | cons a t ih =>
    by_cases hp : p a = true
    · simp [findIdxO, hp] at h
      exact ⟨a, by simp [← h], hp, by intro j y hj _; omega⟩
    · simp [findIdxO, hp] at h
      obtain ⟨m', hm', rfl⟩ := h
      obtain ⟨x, hx, hpx, hmin⟩ := ih m' hm'
      refine ⟨x, by simpa using hx, hpx, ?_⟩
      intro j y hj hy
      cases j with
      | zero =>
        simp at hy
        rw [← hy]
        exact Bool.eq_false_iff.mpr hp
      | succ i => exact hmin i y (by omega) (by simpa using hy)

lemma findIdxO_le {α : Type} (p : α → Bool) (l : List α) (n : Nat) (x : α)
    (hget : l.get? n = some x) (hp : p x = true) :
    ∃ m, findIdxO p l = some m ∧ m ≤ n := by
  induction l generalizing n with
  | nil => simp at hget
  | cons a t ih =>
    by_cases hpa : p a = true
    · exact ⟨0, by simp [findIdxO, hpa], by omega⟩
    · cases n with
      | zero =>
        simp at hget
        rw [hget] at hpa
        exact absurd hp hpa
      | succ m =>
        obtain ⟨i, hi, hle⟩ := ih m (by simpa using hget)
        exact ⟨i + 1, by simp [findIdxO, hpa, hi], by omega⟩

lemma findIdxO_append {α : Type} (p : α → Bool) (xs ys : List α) :
    findIdxO p (xs ++ ys) =
      (match findIdxO p xs with
       | some i => some i
       | none => (findIdxO p ys).map (· + xs.length)) := by
  induction xs with
  | nil =>
    simp only [List.nil_append, List.length_nil]
    cases h : findIdxO p ys with
    | none => simp [findIdxO, h]
    | some i => simp [findIdxO, h]
  | cons a t ih =>
    by_cases hp : p a = true
    · simp [findIdxO, hp]
    · have h1 : findIdxO p ((a :: t) ++ ys) = (findIdxO p (t ++ ys)).map (· + 1) := by
        simp [findIdxO, hp]
      have h2 : findIdxO p (a :: t) = (findIdxO p t).map (· + 1) := by
        simp [findIdxO, hp]
      rw [h1, h2, ih]
      cases h : findIdxO p t with
      | none =>
        simp only [Option.map_none']
        cases hy : findIdxO p ys with
        | none => simp
        | some j => simp [List.length_cons]; omega
      | some i => simp

lemma filterLenMap {α β : Type} (p : α → Bool) (q : β → Bool) :
    ∀ (l₁ : List α) (l₂ : List β), l₁.map p = l₂.map q →
      (l₁.filter p).length = (l₂.filter q).length := by
  intro l₁
  induction l₁ with
  | nil => intro l₂ h; cases l₂ <;> simp_all
  | cons a t ih =>
    intro l₂ h
    cases l₂ with
    | nil => simp at h
    | cons b t₂ =>
      simp only [List.map_cons, List.cons.injEq] at h
      obtain ⟨hab, ht⟩ := h
      by_cases hpa : p a = true
      · rw [List.filter_cons_of_pos hpa, List.filter_cons_of_pos (by rw [← hab]; exact hpa)]
        simpa using ih t₂ ht
      · have hpa' : p a = false := Bool.eq_false_iff.mpr hpa
        rw [List.filter_cons_of_neg (by simp [hpa']),
            List.filter_cons_of_neg (by simp [← hab, hpa'])]
        exact ih t₂ ht

lemma mem_eraseIdx_sub {α : Type} : ∀ (l : List α) (i : Nat) (x : α),
    x ∈ l.eraseIdx i → x ∈ l := by
  intro l
  induction l with
  | nil => intro i x h; simp [List.eraseIdx] at h
  | cons a t ih =>
    intro i x h
    cases i with
    | zero => exact List.mem_cons_of_mem a (by simpa [List.eraseIdx] using h)
    | succ m =>
      simp only [List.eraseIdx, List.mem_cons] at h
      rcases h with h | h
      · simp [h]
      · exact List.mem_cons_of_mem a (ih m x h)

lemma filter_length_eraseIdx {α : Type} (p : α → Bool) :
    ∀ (l : List α) (i : Nat) (x : α), l.get? i = some x → p x = true →
      ((l.eraseIdx i).filter p).length + 1 = (l.filter p).length := by
  intro l
  induction l with
  | nil => intro i x h; simp at h
  | cons a t ih =>
    intro i x hget hp
    cases i with
    | zero =>
      simp at hget
      subst hget
      simp [List.eraseIdx, List.filter_cons, hp]
    | succ m =>
      have h' := ih m x (by simpa using hget) hp
      simp only [List.eraseIdx]
      by_cases hpa : p a = true
      · simp [List.filter_cons, hpa]
        omega
      · simp [List.filter_cons, hpa]
        omega

/-! ## Characterization of the snapshot builder -/

lemma buildGo_length (fs : FS) :
    ∀ (segs : List String) (seen : List (String × Nat)) (idx : Nat),
      (buildGo fs seen idx segs).length = segs.length := by
  intro segs
  induction segs with
  | nil => intro seen idx; rfl
  | cons r rest ih => intro seen idx; simp [buildGo, ih]

lemma csGo_length : ∀ (l : List Entry) (prior : List (String × Nat)),
    (csGo prior l).length = l.length := by
  intro l
  induction l with
  | nil => intro prior; rfl
  | cons e rest ih => intro prior; simp [csGo, ih]

/-- The `seen` dict correctly describes the processed prefix `pre` of
normalized values: it maps a value to `1 +` its first position in `pre`. -/
def SeenOK (seen : List (String × Nat)) (pre : List String) : Prop :=
  ∀ v : String, lookupSeen seen v = (findIdxO (fun x => x == v) pre).map (· + 1)

lemma seenOK_nil : SeenOK [] [] := by
  intro v; rfl

lemma lookupSeen_append (seen : List (String × Nat)) (kv : String × Nat) (v : String) :
    lookupSeen (seen ++ [kv]) v =
      (match lookupSeen seen v with
       | some i => some i
       | none => if kv.1 == v then some kv.2 else none) := by
  induction seen with
  | nil => cases h : (kv.1 == v) <;> simp [lookupSeen, findO, h]
  | cons ab t ih =>
    by_cases h : (ab.1 == v) = true
    · simp [lookupSeen, findO, h]
    · have h1 : lookupSeen ((ab :: t) ++ [kv]) v = lookupSeen (t ++ [kv]) v := by
        simp [lookupSeen, findO, h]
      have h2 : lookupSeen (ab :: t) v = lookupSeen t v := by
        simp [lookupSeen, findO, h]
      rw [h1, h2, ih]

lemma seenOK_step (seen : List (String × Nat)) (pre : List String) (v0 : String)
    (h : SeenOK seen pre) :
    SeenOK (if (lookupSeen seen v0).isSome then seen else seen ++ [(v0, pre.length + 1)])
      (pre ++ [v0]) := by
  intro v
  rw [findIdxO_append]
  by_cases hs : (lookupSeen seen v0).isSome
  · rw [if_pos hs, h v]
    cases hfi : findIdxO (fun x => x == v) pre with
    | some i => simp
    | none =>
      simp only [Option.map_none']
      by_cases hv : v0 = v
      · exfalso
        rw [← hv] at hfi
        have hv0 := h v0
        rw [hfi] at hv0
        simp [hv0] at hs
      · have hnone : findIdxO (fun x => x == v) [v0] = none := by
          simp [findIdxO, hv]
        simp [hnone]
  · rw [if_neg hs, lookupSeen_append, h v]
    cases hfi : findIdxO (fun x => x == v) pre with
    | some i => simp
    | none =>
      simp only [Option.map_none']
      by_cases hv : v0 = v
      · subst hv
        simp [findIdxO]
      · simp [findIdxO, hv, Ne.symm hv]

/-- First-occurrence duplicate reference: the first position of `v` in
`norms`, sent to its 1-based index unless that position is `pos` itself. -/
def dupSpec (norms : List String) (pos : Nat) (v : String) : Option Nat :=
  (findIdxO (fun x => x == v) norms).bind
    (fun m => if m = pos then none else some (m + 1))

/-- Full characterization of the entries produced by `buildGo`: field values
of the entry at position `n`, given that `seen` describes the processed
prefix `pre`. -/
lemma buildGo_getQ (fs : FS) :
    ∀ (segs : List String) (seen : List (String × Nat)) (pre : List String)
      (n : Nat) (e : Entry),
      SeenOK seen pre →
      (buildGo fs seen (pre.length + 1) segs).get? n = some e →
      ∃ raw, segs.get? n = some raw ∧
        e.index = pre.length + n + 1 ∧
        e.raw = raw ∧
        e.expanded = fs.expand raw ∧
        e.normalized = normalize_dir fs raw ∧
        e.pexists = fs.pexists (fs.expand raw) ∧
        e.is_dir = (if fs.pexists (fs.expand raw) then fs.isDir (fs.expand raw) else false) ∧
        e.shadowed_by = none ∧
        e.duplicate_of =
          dupSpec (pre ++ segs.map (normalize_dir fs)) (pre.length + n) e.normalized := by
  intro segs
  induction segs with
  | nil => intro seen pre n e _ h; simp [buildGo] at h
  | cons r rest ih =>
    intro seen pre n e hseen hget
    cases n with
    | zero =>
      simp only [buildGo, List.get?_cons_zero, Option.some.injEq] at hget
      subst hget
      refine ⟨r, rfl, by simp, rfl, rfl, rfl, rfl, rfl, rfl, ?_⟩
      show lookupSeen seen (normalize_dir fs r) =
        dupSpec (pre ++ (r :: rest).map (normalize_dir fs)) (pre.length + 0)
          (normalize_dir fs r)
      rw [hseen (normalize_dir fs r)]
      unfold dupSpec
      rw [findIdxO_append]
      cases hfi : findIdxO (fun x => x == normalize_dir fs r) pre with
      | some m =>
        obtain ⟨x, hx, _, _⟩ := findIdxO_spec _ _ _ hfi
        have hm : m < pre.length := getQ_lt _ _ _ hx
        simp [Nat.ne_of_lt hm]
      | none =>
        have hhead :
            findIdxO (fun x => x == normalize_dir fs r)
              (normalize_dir fs r :: rest.map (normalize_dir fs)) = some 0 := by
          simp [findIdxO]
        simp [hhead]
    | succ m =>
      simp only [buildGo, List.get?_cons_succ] at hget
      have hseen' := seenOK_step seen pre (normalize_dir fs r) hseen
      have hlen : (pre ++ [normalize_dir fs r]).length = pre.length + 1 := by simp
      have hget' :
          (buildGo fs
            (if (lookupSeen seen (normalize_dir fs r)).isSome then seen
             else seen ++ [(normalize_dir fs r, pre.length + 1)])
            ((pre ++ [normalize_dir fs r]).length + 1) rest).get? m = some e := by
        rw [hlen]
        exact hget
      obtain ⟨raw, hraw, hidx, hr, hexp, hnorm, hex, hdir, hsh, hdup⟩ :=
        ih _ _ m e hseen' hget'
      refine ⟨raw, by simpa using hraw, by simp at hidx; omega, hr, hexp, hnorm, hex, hdir, hsh, ?_⟩
      rw [hdup]
      have hA : (pre ++ [normalize_dir fs r]) ++ rest.map (normalize_dir fs) =
          pre ++ (r :: rest).map (normalize_dir fs) := by
        simp
      have hB : (pre ++ [normalize_dir fs r]).length + m = pre.length + (m + 1) := by
        simp
        omega
      rw [hA, hB]

/-! ## Characterization of `compute_shadowing` -/

/-- The `(normalized, index)` pairs of a list of entries. -/
def pairsOf (l : List Entry) : List (String × Nat) :=
  l.map (fun e => (e.normalized, e.index))

/-- What the shadow scan does to one entry, given the prior pairs. -/
def shadApply (ps : List (String × Nat)) (e : Entry) : Entry :=
  match findO (fun ab => shadowTest ab.1 e.normalized) ps with
  | some ab => { e with shadowed_by := some ab.2 }
  | none => e

lemma csGo_getQ : ∀ (l : List Entry) (prior : List (String × Nat)) (n : Nat),
    (csGo prior l).get? n =
      (l.get? n).map (fun e => shadApply (prior ++ pairsOf (l.take n)) e) := by
  intro l
  induction l with
  | nil => intro prior n; simp [csGo]
  | cons e rest ih =>
    intro prior n
    cases n with
    | zero => simp [csGo, shadApply, pairsOf]
    | succ m =>
      simp only [csGo, List.get?_cons_succ, List.take_succ_cons]
      rw [ih]
      simp [pairsOf]

lemma shadApply_fields (ps : List (String × Nat)) (e : Entry) :
    (shadApply ps e).index = e.index ∧ (shadApply ps e).raw = e.raw ∧
    (shadApply ps e).expanded = e.expanded ∧ (shadApply ps e).normalized = e.normalized ∧
    (shadApply ps e).pexists = e.pexists ∧ (shadApply ps e).is_dir = e.is_dir ∧
    (shadApply ps e).duplicate_of = e.duplicate_of := by
  unfold shadApply
  cases findO (fun ab => shadowTest ab.1 e.normalized) ps <;> simp

lemma shadApply_shadow (ps : List (String × Nat)) (e : Entry) :
    (shadApply ps e).shadowed_by =
      (match findO (fun ab => shadowTest ab.1 e.normalized) ps with
       | some ab => some ab.2
       | none => e.shadowed_by) := by
  unfold shadApply
  cases findO (fun ab => shadowTest ab.1 e.normalized) ps <;> simp

/-! ## Characterization of `analyze_path` -/

/-- The normalized values of a PATH string's segments, in order. -/
def normsOf (fs : FS) (raw_path : String) : List String :=
  (segsOf raw_path).map (normalize_dir fs)

lemma analyze_length (fs : FS) (raw_path : String) :
    (analyze_path fs raw_path).length = (segsOf raw_path).length := by
  unfold analyze_path compute_shadowing
  rw [csGo_length, buildGo_length]

lemma analyze_getQ (fs : FS) (raw_path : String) (n : Nat) (e : Entry)
    (h : (analyze_path fs raw_path).get? n = some e) :
    ∃ e0, (buildGo fs [] 1 (segsOf raw_path)).get? n = some e0 ∧
      e = shadApply (pairsOf ((buildGo fs [] 1 (segsOf raw_path)).take n)) e0 := by
  unfold analyze_path compute_shadowing at h
  rw [csGo_getQ] at h
  cases hb : (buildGo fs [] 1 (segsOf raw_path)).get? n with
  | none => rw [hb] at h; simp at h
  | some e0 =>
    rw [hb] at h
    simp at h
    exact ⟨e0, rfl, h.symm⟩

/-- Per-field description of the entry at position `n` of a snapshot. -/
lemma analyze_fields (fs : FS) (raw_path : String) (n : Nat) (e : Entry)
    (h : (analyze_path fs raw_path).get? n = some e) :
    ∃ raw, (segsOf raw_path).get? n = some raw ∧
      e.index = n + 1 ∧ e.raw = raw ∧
      e.expanded = fs.expand raw ∧
      e.normalized = normalize_dir fs raw ∧
      e.pexists = fs.pexists (fs.expand raw) ∧
      e.is_dir = (if fs.pexists (fs.expand raw) then fs.isDir (fs.expand raw) else false) ∧
      e.duplicate_of = dupSpec (normsOf fs raw_path) n e.normalized := by
  obtain ⟨e0, hb, he⟩ := analyze_getQ fs raw_path n e h
  obtain ⟨raw, hraw, hidx, hr, hexp, hnorm, hex, hdir, _, hdup⟩ :=
    buildGo_getQ fs (segsOf raw_path) [] [] n e0 seenOK_nil hb
  obtain ⟨f1, f2, f3, f4, f5, f6, f7⟩ := shadApply_fields (pairsOf ((buildGo fs [] 1 (segsOf raw_path)).take n)) e0
  subst he
  refine ⟨raw, hraw, ?_, ?_, ?_, ?_, ?_, ?_, ?_⟩
  · rw [f1, hidx]; simp
  · rw [f2, hr]
  · rw [f3, hexp]
  · rw [f4, hnorm]
  · rw [f5, hex]
  · rw [f6, hdir]
  · rw [f7, f4, hdup]
    unfold normsOf
    simp [hnorm]

lemma normsOf_getQ (fs : FS) (raw_path : String) (n : Nat) :
    (normsOf fs raw_path).get? n = ((segsOf raw_path).get? n).map (normalize_dir fs) :=
  getQ_map _ _ _

lemma normsOf_length (fs : FS) (raw_path : String) :
    (normsOf fs raw_path).length = (segsOf raw_path).length := by
  simp [normsOf]

/-! ## Claim C1 -/

/-- **C1.** For every snapshot built by `analyze_path` and every entry `e`
with `duplicate_of = k`: `k < e.index`; the entry at index `k` (position
`k - 1`) has the same normalized value as `e` and its own `duplicate_of` is
none; `k` is the index of the first entry in the snapshot with that
normalized value (no entry with that normalized value has a smaller index);
and an entry with no strictly earlier entry of the same normalized value —
a first occurrence — never gets a `duplicate_of`. -/
theorem duplicate_of_first_occurrence (fs : FS) (raw_path : String) (n : Nat) (e : Entry)
    (h : (analyze_path fs raw_path).get? n = some e) :
    (∀ k, e.duplicate_of = some k →
      k < e.index ∧
      ∃ e2, (analyze_path fs raw_path).get? (k - 1) = some e2 ∧
        e2.index = k ∧ e2.normalized = e.normalized ∧ e2.duplicate_of = none ∧
        ∀ m e3, (analyze_path fs raw_path).get? m = some e3 →
          e3.normalized = e.normalized → k ≤ e3.index)
    ∧ ((∀ m e3, m < n → (analyze_path fs raw_path).get? m = some e3 →
        e3.normalized ≠ e.normalized) → e.duplicate_of = none) := by
  obtain ⟨raw, hraw, hidx, hr, hexp, hnorm, hex, hdir, hdup⟩ :=
    analyze_fields fs raw_path n e h
  have hnormn : (normsOf fs raw_path).get? n = some e.normalized := by
    rw [normsOf_getQ, hraw, hnorm]
    rfl
  constructor
  · intro k hk
    rw [hdup] at hk
    unfold dupSpec at hk
    cases hfi : findIdxO (fun x => x == e.normalized) (normsOf fs raw_path) with
    | none => rw [hfi] at hk; simp at hk
    | some m =>
      rw [hfi] at hk
      change (if m = n then none else some (m + 1)) = some k at hk
      by_cases hmn : m = n
      · rw [if_pos hmn] at hk; simp at hk
      · rw [if_neg hmn] at hk
        have hkm : k = m + 1 := by
          simpa using hk.symm
        obtain ⟨x, hx, hpx, hmin⟩ := findIdxO_spec _ _ _ hfi
        have hxe : x = e.normalized := by
          simpa using hpx
        obtain ⟨m', hm', hle⟩ :=
          findIdxO_le (fun x => x == e.normalized) (normsOf fs raw_path) n
            e.normalized hnormn (by simp)
        have hmm : m' = m := by rw [hfi] at hm'; exact (Option.some.inj hm').symm
        have hmltn : m < n := by omega
        have hmlen : m < (analyze_path fs raw_path).length := by
          rw [analyze_length]
          rw [← normsOf_length fs raw_path]
          exact getQ_lt _ _ _ hx
        obtain ⟨e2, he2⟩ := lt_getQ _ _ hmlen
        obtain ⟨raw2, hraw2, hidx2, hr2, hexp2, hnorm2, hex2, hdir2, hdup2⟩ :=
          analyze_fields fs raw_path m e2 he2
        have hnorm2x : e2.normalized = e.normalized := by
          have : (normsOf fs raw_path).get? m = some e2.normalized := by
            rw [normsOf_getQ, hraw2, hnorm2]
            rfl
          rw [this] at hx
          rw [← hxe]
          exact Option.some.inj hx
        refine ⟨by omega, e2, ?_, by omega, hnorm2x, ?_, ?_⟩
        · have : k - 1 = m := by omega
          rw [this]
          exact he2
        · rw [hdup2]
          unfold dupSpec
          rw [hnorm2x, hfi]
          simp
        · intro m3 e3 hget3 hnorm3
          obtain ⟨raw3, hraw3, hidx3, _, _, hnorm3', _, _, _⟩ :=
            analyze_fields fs raw_path m3 e3 hget3
          have hx3 : (normsOf fs raw_path).get? m3 = some e3.normalized := by
            rw [normsOf_getQ, hraw3, hnorm3']
            rfl
          by_cases hlt : m3 < m
          · exfalso
            have := hmin m3 e3.normalized hlt hx3
            rw [hnorm3] at this
            simp at this
          · omega
  · intro hno
    rw [hdup]
    unfold dupSpec
    obtain ⟨m, hm, hle⟩ :=
      findIdxO_le (fun x => x == e.normalized) (normsOf fs raw_path) n
        e.normalized hnormn (by simp)
    rw [hm]
    change (if m = n then none else some (m + 1)) = none
    by_cases hmn : m = n
    · rw [if_pos hmn]
    · exfalso
      have hmltn : m < n := by omega
      obtain ⟨x, hx, hpx, _⟩ := findIdxO_spec _ _ _ hm
      have hxe : x = e.normalized := by simpa using hpx
      have hmlen : m < (analyze_path fs raw_path).length := by
        rw [analyze_length, ← normsOf_length fs raw_path]
        exact getQ_lt _ _ _ hx
      obtain ⟨e3, he3⟩ := lt_getQ _ _ hmlen
      obtain ⟨raw3, hraw3, _, _, _, hnorm3, _, _, _⟩ :=
        analyze_fields fs raw_path m e3 he3
      have hx3 : (normsOf fs raw_path).get? m = some e3.normalized := by
        rw [normsOf_getQ, hraw3, hnorm3]
        rfl
      have he3n : e3.normalized = e.normalized := by
        rw [hx3] at hx
        rw [← hxe]
        exact Option.some.inj hx
      exact hno m e3 hmltn he3 he3n

/-- The third entry of the snapshot of `"/a:/b:/a"` under `fsNone`. -/
def eW1 : Entry :=
  ⟨3, "/a", "/a", "/a", false, false, "Other / Unknown", "no match", some 1, none⟩

/-- Witness for C1 at the concrete snapshot `"/a:/b:/a"` (entry 3 duplicates
entry 1). -/
theorem duplicate_of_first_occurrence_witness :
    (analyze_path fsNone "/a:/b:/a").get? 2 = some eW1 ∧
    ((∀ k, eW1.duplicate_of = some k →
      k < eW1.index ∧
      ∃ e2, (analyze_path fsNone "/a:/b:/a").get? (k - 1) = some e2 ∧
        e2.index = k ∧ e2.normalized = eW1.normalized ∧ e2.duplicate_of = none ∧
        ∀ m e3, (analyze_path fsNone "/a:/b:/a").get? m = some e3 →
          e3.normalized = eW1.normalized → k ≤ e3.index)
    ∧ ((∀ m e3, m < 2 → (analyze_path fsNone "/a:/b:/a").get? m = some e3 →
        e3.normalized ≠ eW1.normalized) → eW1.duplicate_of = none)) :=
  ⟨by decide, duplicate_of_first_occurrence fsNone "/a:/b:/a" 2 eW1 (by decide)⟩

/-! ## Claims C2 and C3 -/

lemma shadowTest_parts (a b : String) (h : shadowTest a b = true) :
    b ≠ a ∧ isPrefL (rstripSep a ++ "/").data b.data = true := by
  unfold shadowTest at h
  rw [Bool.and_eq_true] at h
  exact ⟨bne_iff_ne.mp h.1, h.2⟩

/-- The shadow reference of the entry at position `n` is the first
(scan-order) prior pair passing `shadowTest`. -/
lemma analyze_shadow (fs : FS) (raw_path : String) (n : Nat) (e : Entry)
    (h : (analyze_path fs raw_path).get? n = some e) :
    e.shadowed_by =
      (findO (fun ab => shadowTest ab.1 e.normalized)
        (pairsOf ((buildGo fs [] 1 (segsOf raw_path)).take n))).map (·.2) := by
  obtain ⟨e0, hb, he⟩ := analyze_getQ fs raw_path n e h
  obtain ⟨_, _, _, _, _, _, _, _, hsh0, _⟩ :=
    buildGo_getQ fs (segsOf raw_path) [] [] n e0 seenOK_nil hb
  have h4 := (shadApply_fields (pairsOf ((buildGo fs [] 1 (segsOf raw_path)).take n)) e0).2.2.2.1
  subst he
  rw [shadApply_shadow, h4, hsh0]
  cases findO (fun ab => shadowTest ab.1 e0.normalized)
      (pairsOf ((buildGo fs [] 1 (segsOf raw_path)).take n)) <;> simp

/-- The prior-pair list seen by the shadow scan at position `n`: position `j`
holds the `j`-th segment's normalized value with 1-based index `j + 1`. -/
lemma priorPairs_getQ (fs : FS) (raw_path : String) (n j : Nat) (hj : j < n) :
    (pairsOf ((buildGo fs [] 1 (segsOf raw_path)).take n)).get? j =
      ((segsOf raw_path).get? j).map (fun r => (normalize_dir fs r, j + 1)) := by
  unfold pairsOf
  rw [getQ_map, getQ_take _ _ _ hj]
  cases hb : (buildGo fs [] 1 (segsOf raw_path)).get? j with
  | none =>
    cases hs : (segsOf raw_path).get? j with
    | none => rfl
    | some r =>
      exfalso
      have hlt := getQ_lt _ _ _ hs
      rw [← buildGo_length fs (segsOf raw_path) [] 1] at hlt
      obtain ⟨y, hy⟩ := lt_getQ _ _ hlt
      rw [hb] at hy
      exact Option.noConfusion hy
  | some e0 =>
    obtain ⟨raw0, hget0, hidx0, _, _, hnorm0, _, _, _, _⟩ :=
      buildGo_getQ fs (segsOf raw_path) [] [] j e0 seenOK_nil hb
    rw [hget0]
    simp only [Option.map_some']
    congr 1
    rw [hnorm0, hidx0]
    simp

lemma priorPairs_length (fs : FS) (raw_path : String) (n : Nat) :
    (pairsOf ((buildGo fs [] 1 (segsOf raw_path)).take n)).length ≤ n := by
  simp [pairsOf, List.length_take]

/-- **C2.** For every snapshot and every entry `e` with `shadowed_by = k`:
`1 ≤ k < e.index`, and the entry at index `k` has a normalized value that is
a strict proper ancestor directory of `e.normalized` under the
path-segment-boundary test (`e2.normalized` stripped of trailing separators,
plus a separator, is a prefix of `e.normalized`) and is never equal to
`e.normalized` — so an entry whose normalized value equals an earlier
entry's is never marked as shadowed by it. -/
theorem shadowed_by_strict_ancestor (fs : FS) (raw_path : String) (n : Nat) (e : Entry)
    (h : (analyze_path fs raw_path).get? n = some e) :
    ∀ k, e.shadowed_by = some k →
      1 ≤ k ∧ k < e.index ∧
      ∃ e2, (analyze_path fs raw_path).get? (k - 1) = some e2 ∧
        e2.index = k ∧
        e2.normalized ≠ e.normalized ∧
        isPrefL (rstripSep e2.normalized ++ "/").data e.normalized.data = true ∧
        shadowTest e2.normalized e.normalized = true := by
  intro k hk
  obtain ⟨raw, hraw, hidx, _, _, hnorm, _, _, _⟩ := analyze_fields fs raw_path n e h
  rw [analyze_shadow fs raw_path n e h] at hk
  cases hfo : findO (fun ab => shadowTest ab.1 e.normalized)
      (pairsOf ((buildGo fs [] 1 (segsOf raw_path)).take n)) with
  | none => rw [hfo] at hk; simp at hk
  | some ab =>
    rw [hfo] at hk
    simp only [Option.map_some', Option.some.injEq] at hk
    obtain ⟨i, hi, hpred, _⟩ := findO_spec _ _ _ hfo
    have hin : i < n := by
      have := getQ_lt _ _ _ hi
      have := priorPairs_length fs raw_path n
      omega
    rw [priorPairs_getQ fs raw_path n i hin] at hi
    cases hs : (segsOf raw_path).get? i with
    | none => rw [hs] at hi; simp at hi
    | some ri =>
      rw [hs] at hi
      simp only [Option.map_some', Option.some.injEq] at hi
      have hab1 : ab.1 = normalize_dir fs ri := by rw [← hi]
      have hab2 : ab.2 = i + 1 := by rw [← hi]
      have hnlen : n < (analyze_path fs raw_path).length := getQ_lt _ _ _ h
      obtain ⟨e2, he2⟩ := lt_getQ (analyze_path fs raw_path) i (by omega)
      obtain ⟨raw2, hraw2, hidx2, _, _, hnorm2, _, _, _⟩ :=
        analyze_fields fs raw_path i e2 he2
      have hraw2' : raw2 = ri := by
        rw [hs] at hraw2
        exact (Option.some.inj hraw2).symm
      have he2norm : e2.normalized = ab.1 := by
        rw [hab1, hnorm2, hraw2']
      have htest : shadowTest e2.normalized e.normalized = true := by
        rw [he2norm]
        exact hpred
      obtain ⟨hne, hprefix⟩ := shadowTest_parts _ _ htest
      refine ⟨by omega, by omega, e2, ?_, by omega, Ne.symm hne, hprefix, htest⟩
      have : k - 1 = i := by omega
      rw [this]
      exact he2

/-- The second entry of the snapshot of `"/a:/a/b"` under `fsNone`. -/
def eW2 : Entry :=
  ⟨2, "/a/b", "/a/b", "/a/b", false, false, "Other / Unknown", "no match", none, some 1⟩

/-- Witness for C2 at the concrete snapshot `"/a:/a/b"` (entry 2 shadowed by
entry 1, whose normalized value `/a` is a strict ancestor of `/a/b`). -/
theorem shadowed_by_strict_ancestor_witness :
    (analyze_path fsNone "/a:/a/b").get? 1 = some eW2 ∧
    (∀ k, eW2.shadowed_by = some k →
      1 ≤ k ∧ k < eW2.index ∧
      ∃ e2, (analyze_path fsNone "/a:/a/b").get? (k - 1) = some e2 ∧
        e2.index = k ∧
        e2.normalized ≠ eW2.normalized ∧
        isPrefL (rstripSep e2.normalized ++ "/").data eW2.normalized.data = true ∧
        shadowTest e2.normalized eW2.normalized = true) :=
  ⟨by decide, shadowed_by_strict_ancestor fsNone "/a:/a/b" 1 eW2 (by decide)⟩

/-- A default entry, for position lookups in closed statements. -/
def dummyE : Entry := ⟨0, "", "", "", false, false, "", "", none, none⟩

/-- **C3, counterexample.** In the snapshot of `"/a:/a/b:/a/b/c"` (no path
exists), the third entry `/a/b/c` has two prior strict-ancestor entries:
`/a` (index 1) and `/a/b` (index 2). The nearest one is index 2, but
`compute_shadowing` scans prior entries from the earliest (`for j in
range(i)`) and stops at the first match, recording index 1 — so
`shadowed_by` is not the nearest prior ancestor. -/
theorem shadowed_by_nearest_cex :
    ((analyze_path fsNone "/a:/a/b:/a/b/c").getD 2 dummyE).shadowed_by = some 1 ∧
    ((analyze_path fsNone "/a:/a/b:/a/b/c").getD 1 dummyE).index = 2 ∧
    shadowTest ((analyze_path fsNone "/a:/a/b:/a/b/c").getD 1 dummyE).normalized
      ((analyze_path fsNone "/a:/a/b:/a/b/c").getD 2 dummyE).normalized = true ∧
    ((analyze_path fsNone "/a:/a/b:/a/b/c").getD 2 dummyE).shadowed_by ≠ some 2 := by
  decide

/-- **C3, amended.** For every snapshot and every entry `e` that has at least
one strictly earlier entry whose normalized value is a strict ancestor
directory of `e.normalized` (per `shadowTest`), `e.shadowed_by` is the index
of the **earliest** (lowest-index) such prior entry, not the nearest: every
strictly earlier prior entry fails the ancestor test, and whenever some
earlier ancestor entry exists, `shadowed_by` is set. -/
theorem shadowed_by_earliest (fs : FS) (raw_path : String) (n : Nat) (e : Entry)
    (h : (analyze_path fs raw_path).get? n = some e) :
    (∀ k, e.shadowed_by = some k →
      ∃ i, i < n ∧ k = i + 1 ∧
        ∃ e2, (analyze_path fs raw_path).get? i = some e2 ∧
          shadowTest e2.normalized e.normalized = true ∧
          ∀ j e3, j < i → (analyze_path fs raw_path).get? j = some e3 →
            shadowTest e3.normalized e.normalized = false)
    ∧ (∀ i e2, i < n → (analyze_path fs raw_path).get? i = some e2 →
        shadowTest e2.normalized e.normalized = true → e.shadowed_by ≠ none) := by
  have hsh := analyze_shadow fs raw_path n e h
  have hnlen : n < (analyze_path fs raw_path).length := getQ_lt _ _ _ h
  constructor
  · intro k hk
    rw [hsh] at hk
    cases hfo : findO (fun ab => shadowTest ab.1 e.normalized)
        (pairsOf ((buildGo fs [] 1 (segsOf raw_path)).take n)) with
    | none => rw [hfo] at hk; simp at hk
    | some ab =>
      rw [hfo] at hk
      simp only [Option.map_some', Option.some.injEq] at hk
      obtain ⟨i, hi, hpred, hmin⟩ := findO_spec _ _ _ hfo
      have hin : i < n := by
        have := getQ_lt _ _ _ hi
        have := priorPairs_length fs raw_path n
        omega
      rw [priorPairs_getQ fs raw_path n i hin] at hi
      cases hs : (segsOf raw_path).get? i with
      | none => rw [hs] at hi; simp at hi
      | some ri =>
        rw [hs] at hi
        simp only [Option.map_some', Option.some.injEq] at hi
        obtain ⟨e2, he2⟩ := lt_getQ (analyze_path fs raw_path) i (by omega)
        obtain ⟨raw2, hraw2, _, _, _, hnorm2, _, _, _⟩ :=
          analyze_fields fs raw_path i e2 he2
        have hraw2' : raw2 = ri := by
          rw [hs] at hraw2
          exact (Option.some.inj hraw2).symm
        have he2norm : e2.normalized = ab.1 := by
          rw [← hi, hnorm2, hraw2']
        refine ⟨i, hin, by rw [← hk, ← hi], e2, he2, by rw [he2norm]; exact hpred, ?_⟩
        intro j e3 hj hget3
        obtain ⟨raw3, hraw3, _, _, _, hnorm3, _, _, _⟩ :=
          analyze_fields fs raw_path j e3 hget3
        have hpj : (pairsOf ((buildGo fs [] 1 (segsOf raw_path)).take n)).get? j =
            some (e3.normalized, j + 1) := by
          rw [priorPairs_getQ fs raw_path n j (by omega), hraw3]
          simp [hnorm3]
        have := hmin j (e3.normalized, j + 1) hj hpj
        simpa using this
  · intro i e2 hin hget2 htest
    obtain ⟨raw2, hraw2, _, _, _, hnorm2, _, _, _⟩ :=
      analyze_fields fs raw_path i e2 hget2
    have hpi : (pairsOf ((buildGo fs [] 1 (segsOf raw_path)).take n)).get? i =
        some (e2.normalized, i + 1) := by
      rw [priorPairs_getQ fs raw_path n i hin, hraw2]
      simp [hnorm2]
    obtain ⟨y, hy⟩ := findO_complete
      (fun ab => shadowTest ab.1 e.normalized) _ i (e2.normalized, i + 1) hpi (by simpa using htest)
    rw [hsh, hy]
    simp

/-- The third entry of the snapshot of `"/a:/a/b:/a/b/c"` under `fsNone`. -/
def eW3 : Entry :=
  ⟨3, "/a/b/c", "/a/b/c", "/a/b/c", false, false, "Other / Unknown", "no match", none, some 1⟩

/-- Witness for the amended C3 at the concrete snapshot `"/a:/a/b:/a/b/c"`:
entry 3's `shadowed_by` is the earliest prior ancestor (index 1). -/
theorem shadowed_by_earliest_witness :
    (analyze_path fsNone "/a:/a/b:/a/b/c").get? 2 = some eW3 ∧
    ((∀ k, eW3.shadowed_by = some k →
      ∃ i, i < 2 ∧ k = i + 1 ∧
        ∃ e2, (analyze_path fsNone "/a:/a/b:/a/b/c").get? i = some e2 ∧
          shadowTest e2.normalized eW3.normalized = true ∧
          ∀ j e3, j < i → (analyze_path fsNone "/a:/a/b:/a/b/c").get? j = some e3 →
            shadowTest e3.normalized eW3.normalized = false)
    ∧ (∀ i e2, i < 2 → (analyze_path fsNone "/a:/a/b:/a/b/c").get? i = some e2 →
        shadowTest e2.normalized eW3.normalized = true → eW3.shadowed_by ≠ none)) :=
  ⟨by decide, shadowed_by_earliest fsNone "/a:/a/b:/a/b/c" 2 eW3 (by decide)⟩

/-! ## Claim C4 -/

/-- **C4.** `classify` is a pure function of its input string (and of the
module constant `HOME`), evaluating its rules in a fixed first-match-wins
order: system prefixes, then developer-tooling prefixes, then Homebrew
prefixes (reason "brew cellar" exactly when the path contains a Cellar
component, else "brew prefix"), then the keyword buckets in table order
(`bucketHit` scans `KEYWORD_BUCKETS` left to right), then the node and
python versioned-runtime fallbacks, then the default
`("Other / Unknown", "no match")`. In particular a path starting with a
system prefix is classified `("System", "system prefix")` unconditionally,
even if it contains a keyword-bucket substring. -/
theorem classify_first_match_order (home p : String) :
    (startsAny p SYSTEM_PREFIXES = true → classify home p = ("System", "system prefix"))
    ∧ (startsAny p SYSTEM_PREFIXES = false → startsAny p DEV_PREFIXES = true →
        classify home p = ("Apple / Xcode / Developer", "developer tools prefix"))
    ∧ (startsAny p SYSTEM_PREFIXES = false → startsAny p DEV_PREFIXES = false →
        startsAny p BREW_PREFIXES = true →
        classify home p =
          ("Homebrew", if cellarTest p = true then "brew cellar" else "brew prefix"))
    ∧ (∀ cat hit, startsAny p SYSTEM_PREFIXES = false → startsAny p DEV_PREFIXES = false →
        startsAny p BREW_PREFIXES = false →
        bucketHit home (lowerS p) = some (cat, hit) →
        classify home p = (cat, "matched " ++ sq ++ hit ++ sq))
    ∧ (startsAny p SYSTEM_PREFIXES = false → startsAny p DEV_PREFIXES = false →
        startsAny p BREW_PREFIXES = false → bucketHit home (lowerS p) = none →
        hasNodeVer (lowerS p).data = true →
        classify home p = ("Node.js", "node versioned path"))
    ∧ (startsAny p SYSTEM_PREFIXES = false → startsAny p DEV_PREFIXES = false →
        startsAny p BREW_PREFIXES = false → bucketHit home (lowerS p) = none →
        hasNodeVer (lowerS p).data = false → hasPyVer (lowerS p).data = true →
        classify home p = ("Python", "python versioned path"))
    ∧ (startsAny p SYSTEM_PREFIXES = false → startsAny p DEV_PREFIXES = false →
        startsAny p BREW_PREFIXES = false → bucketHit home (lowerS p) = none →
        hasNodeVer (lowerS p).data = false → hasPyVer (lowerS p).data = false →
        classify home p = ("Other / Unknown", "no match")) := by
  refine ⟨?_, ?_, ?_, ?_, ?_, ?_, ?_⟩
  · intro h1
    simp [classify, h1]
  · intro h1 h2
    simp [classify, h1, h2]
  · intro h1 h2 h3
    by_cases hc : cellarTest p = true
    · simp [classify, h1, h2, h3, hc]
    · simp only [Bool.not_eq_true] at hc
      simp [classify, h1, h2, h3, hc]
  · intro cat hit h1 h2 h3 hb
    simp [classify, h1, h2, h3, hb]
  · intro h1 h2 h3 hb h5
    simp [classify, h1, h2, h3, hb, h5]
  · intro h1 h2 h3 hb h5 h6
    simp [classify, h1, h2, h3, hb, h5, h6]
  · intro h1 h2 h3 hb h5 h6
    simp [classify, h1, h2, h3, hb, h5, h6]

/-- Witness for C4: a system-prefix path containing the keyword "python" is
still classified System; a Homebrew cellar path gets reason "brew cellar";
an unmatched path falls through to the default. -/
theorem classify_first_match_order_witness :
    (startsAny "/usr/bin/python3" SYSTEM_PREFIXES = true ∧
     containsS (lowerS "/usr/bin/python3") "python" = true ∧
     classify "/Users/dave" "/usr/bin/python3" = ("System", "system prefix")) ∧
    (startsAny "/opt/homebrew/Cellar/foo/1.0/bin" BREW_PREFIXES = true ∧
     classify "/Users/dave" "/opt/homebrew/Cellar/foo/1.0/bin" = ("Homebrew", "brew cellar")) ∧
    classify "/Users/dave" "/zzz" = ("Other / Unknown", "no match") :=
  ⟨⟨by decide, by decide,
    (classify_first_match_order "/Users/dave" "/usr/bin/python3").1 (by decide)⟩,
   ⟨by decide, by
      have h := (classify_first_match_order "/Users/dave" "/opt/homebrew/Cellar/foo/1.0/bin").2.2.1
        (by decide) (by decide) (by decide)
      rw [h]
      decide⟩,
   by
     have h := (classify_first_match_order "/Users/dave" "/zzz").2.2.2.2.2.2
     exact h (by decide) (by decide) (by decide) (by decide) (by decide) (by decide)⟩

/-! ## Claim C6 -/

/-- **C6.** Re-snapshotting with an alternate PATH string (`reanalyze_with`,
and the final re-grouping in `main`) restores the PATH environment variable
to its prior value on every exit path: whatever the body does — return a
value or raise (`Except.error`), and however it mutates the variable — the
final PATH state equals the value on entry, and the body's outcome
(including a raised exception) is propagated unchanged. -/
theorem path_restored_on_all_exits {α ε : Type} (body : String → Except ε α × String)
    (envPath path_value : String) :
    (reanalyze_with body envPath path_value).2 = envPath ∧
    (reanalyze_with body envPath path_value).1 = (body path_value).1 ∧
    (mainFinalRegroup body envPath path_value).2 = envPath ∧
    (mainFinalRegroup body envPath path_value).1 = (body path_value).1 :=
  ⟨rfl, rfl, rfl, rfl⟩

/-! ## Claim C7 -/

/-- **C7.** In the fix session, for the Replace-manual (action "3") and
Create-directory (action "5") flows, when directory creation raises: the
mutable `parts` list is returned completely unchanged, the failure is logged
as a `MKDIR FAILED` line carrying the underlying cause, and the flow
continues (Replace-manual re-prompts, Create-directory returns to the
session loop) rather than terminating. -/
theorem mkdir_failure_no_mutation (fs : FS) (mkdir : String → Except String Unit)
    (e : Entry) (parts : List String) (typed yn : String) (ex1 ex2 : String) :
    (lowerS typed ≠ "b" → typed ≠ "" →
      (fs.pexists (normalize_dir fs typed) && fs.isDir (normalize_dir fs typed)) = false →
      lowerS yn = "y" →
      mkdir (normalize_dir fs typed) = Except.error ex1 →
      replaceManualStep fs mkdir e parts typed yn =
        ManualOutcome.retry parts
          ["#" ++ fmt2 e.index ++ " MKDIR FAILED | target=" ++ normalize_dir fs typed ++
            " | error=" ++ ex1])
    ∧ (mkdir (normalize_dir fs e.raw) = Except.error ex2 →
      applyCreateDir fs mkdir e parts =
        (parts, ["#" ++ fmt2 e.index ++ " MKDIR FAILED | target=" ++ normalize_dir fs e.raw ++
          " | error=" ++ ex2])) := by
  constructor
  · intro h1 h2 h3 h4 h5
    simp [replaceManualStep, beq_iff_eq, h1, h2, h3, h4, h5]
  · intro h6
    simp [applyCreateDir, h6]

/-- A mkdir that always fails. -/
def mkdirFail : String → Except String Unit := fun _ => Except.error "denied"

/-- Witness for C7: with a failing mkdir, both flows leave
`["/a", "/b", "/a"]` untouched and log the cause. -/
theorem mkdir_failure_no_mutation_witness :
    (lowerS "/new" ≠ "b" ∧ ("/new" : String) ≠ "" ∧
     (fsNone.pexists (normalize_dir fsNone "/new") && fsNone.isDir (normalize_dir fsNone "/new")) = false ∧
     lowerS "y" = "y" ∧
     mkdirFail (normalize_dir fsNone "/new") = Except.error "denied") ∧
    replaceManualStep fsNone mkdirFail eW1 ["/a", "/b", "/a"] "/new" "y" =
      ManualOutcome.retry ["/a", "/b", "/a"]
        ["#" ++ fmt2 eW1.index ++ " MKDIR FAILED | target=" ++ normalize_dir fsNone "/new" ++
          " | error=" ++ "denied"] ∧
    applyCreateDir fsNone mkdirFail eW1 ["/a", "/b", "/a"] =
      (["/a", "/b", "/a"],
        ["#" ++ fmt2 eW1.index ++ " MKDIR FAILED | target=" ++ normalize_dir fsNone eW1.raw ++
          " | error=" ++ "denied"]) :=
  ⟨⟨by decide, by decide, by decide, by decide, rfl⟩,
   (mkdir_failure_no_mutation fsNone mkdirFail eW1 ["/a", "/b", "/a"] "/new" "y"
      "denied" "denied").1 (by decide) (by decide) (by decide) (by decide) rfl,
   (mkdir_failure_no_mutation fsNone mkdirFail eW1 ["/a", "/b", "/a"] "/new" "y"
      "denied" "denied").2 rfl⟩

/-! ## Split/join round-trip lemmas (for C8, C9, C10) -/

lemma pySplit_ne_nil (sep : Char) (l : List Char) : pySplit sep l ≠ [] := by
  induction l with
  | nil => simp [pySplit]
  | cons c t ih =>
    simp only [pySplit]
    by_cases h : c = sep
    · simp [h]
    · rw [if_neg h]
      cases hr : pySplit sep t with
      | nil => simp
      | cons a as => simp

lemma pySplit_no_sep (sep : Char) (l : List Char) :
    ∀ x ∈ pySplit sep l, sep ∉ x := by
  induction l with
  | nil =>
    intro x hx
    simp [pySplit] at hx
    simp [hx]
  | cons c t ih =>
    intro x hx
    simp only [pySplit] at hx
    by_cases h : c = sep
    · rw [if_pos h] at hx
      rcases List.mem_cons.mp hx with h1 | h1
      · simp [h1]
      · exact ih x h1
    · rw [if_neg h] at hx
      cases hr : pySplit sep t with
      | nil =>
        rw [hr] at hx
        simp at hx
        subst hx
        simp [Ne.symm h]
      | cons a as =>
        rw [hr] at hx
        rcases List.mem_cons.mp hx with h1 | h1
        · have ha := ih a (by rw [hr]; exact List.mem_cons_self a as)
          subst h1
          simp [Ne.symm h, ha]
        · exact ih x (by rw [hr]; exact List.mem_cons_of_mem a h1)

lemma pySplit_single (sep : Char) (x : List Char) (hx : sep ∉ x) :
    pySplit sep x = [x] := by
  induction x with
  | nil => rfl
  | cons c t ih =>
    have hc : c ≠ sep := by
      intro h
      exact hx (by simp [h])
    have ht : sep ∉ t := fun h => hx (List.mem_cons_of_mem c h)
    simp only [pySplit]
    rw [if_neg hc, ih ht]

lemma pySplit_sep_append (sep : Char) (x rest : List Char) (hx : sep ∉ x) :
    pySplit sep (x ++ sep :: rest) = x :: pySplit sep rest := by
  induction x with
  | nil => simp [pySplit]
  | cons c t ih =>
    have hc : c ≠ sep := by
      intro h
      exact hx (by simp [h])
    have ht : sep ∉ t := fun h => hx (List.mem_cons_of_mem c h)
    simp only [List.cons_append, pySplit]
    rw [if_neg hc]
    have hih := ih ht
    simp only [List.append_eq]
    rw [hih]

lemma pySplit_joinL (sep : Char) : ∀ (ls : List (List Char)), ls ≠ [] →
    (∀ x ∈ ls, sep ∉ x) → pySplit sep (joinL sep ls) = ls := by
  intro ls
  induction ls with
  | nil => intro h; exact absurd rfl h
  | cons x xs ih =>
    intro _ hall
    cases xs with
    | nil =>
      show pySplit sep (joinL sep [x]) = [x]
      simp only [joinL]
      exact pySplit_single sep x (hall x (by simp))
    | cons y ys =>
      show pySplit sep (x ++ sep :: joinL sep (y :: ys)) = x :: (y :: ys)
      rw [pySplit_sep_append sep x _ (hall x (by simp)),
        ih (by simp) (fun z hz => hall z (List.mem_cons_of_mem x hz))]

lemma strMk_data (s : String) : (⟨s.data⟩ : String) = s := rfl

lemma emptyStr_data : ("" : String).data = [] := rfl

lemma strMk_ne_empty (l : List Char) (h : l ≠ []) : (⟨l⟩ : String) ≠ "" := by
  intro he
  exact h (congrArg String.data he)

lemma joinL_cons_ne_nil (sep : Char) (x : List Char) (xs : List (List Char)) (hx : x ≠ []) :
    joinL sep (x :: xs) ≠ [] := by
  cases xs with
  | nil => simpa [joinL] using hx
  | cons y ys =>
    show x ++ sep :: joinL sep (y :: ys) ≠ []
    simp

/-- Round trip at the segment level: splitting the joined PATH string (with
`analyze_path`'s empty-string guard) recovers the parts, whenever every part
is nonempty and separator-free. Holds for the empty list too, because the
builder maps an empty PATH string to no segments. -/
lemma segsOf_rebuild (parts : List String) (hne : ∀ p ∈ parts, p ≠ "")
    (hsep : ∀ p ∈ parts, ':' ∉ p.data) :
    segsOf (rebuild_path parts) = parts := by
  have hfilter : parts.filter (fun p => p ≠ "") = parts := by
    rw [List.filter_eq_self]
    intro a ha
    simp [hne a ha]
  cases parts with
  | nil => decide
  | cons p0 rest =>
    unfold rebuild_path
    rw [hfilter]
    have hdata_ne : p0.data ≠ [] := by
      intro hd
      apply hne p0 (by simp)
      have h1 := strMk_data p0
      rw [hd] at h1
      exact h1.symm
    have hjoin_ne : joinL ':' ((p0 :: rest).map String.data) ≠ [] := by
      simp only [List.map_cons]
      exact joinL_cons_ne_nil ':' p0.data (rest.map String.data) hdata_ne
    unfold segsOf
    rw [if_neg (strMk_ne_empty _ hjoin_ne)]
    show (pySplit ':' (joinL ':' ((p0 :: rest).map String.data))).map
        (fun l => (⟨l⟩ : String)) = p0 :: rest
    rw [pySplit_joinL ':' ((p0 :: rest).map String.data) (by simp) ?hsep']
    case hsep' =>
      intro x hxm
      obtain ⟨q, hq, hqx⟩ := List.mem_map.mp hxm
      rw [← hqx]
      exact hsep q hq
    rw [List.map_map]
    have : (fun l => (⟨l⟩ : String)) ∘ String.data = id := by
      funext s
      exact strMk_data s
    rw [this, List.map_id]

/-! ## Claim C8 -/

/-- **C8, counterexample.** The round trip fails for a parts list whose
single segment contains the separator: joining `["a:b"]` gives `"a:b"`,
which re-splits into `["a", "b"]`, not `["a:b"]`. (Such a segment can enter
a fix session's `parts` through a manual replacement naming an existing
directory whose path contains `':'`.) -/
theorem rebuild_roundtrip_cex :
    segsOf (rebuild_path ["a:b"]) = ["a", "b"] ∧
    segsOf (rebuild_path ["a:b"]) ≠ ["a:b"] := by
  decide

/-- **C8, amended.** Joining a fix session's `parts` with the platform
path-list separator (`rebuild_path`) and re-splitting the result on that
separator yields back the same `parts` list, provided every segment is
nonempty and contains no separator character (as is the case for all parts
lists built from split PATH segments). -/
theorem rebuild_roundtrip (parts : List String) (hne : ∀ p ∈ parts, p ≠ "")
    (hsep : ∀ p ∈ parts, ':' ∉ p.data) :
    segsOf (rebuild_path parts) = parts :=
  segsOf_rebuild parts hne hsep

/-- Witness for the amended C8 on a concrete two-segment parts list. -/
theorem rebuild_roundtrip_witness :
    ((∀ p ∈ (["/usr/bin", "/opt/x"] : List String), p ≠ "") ∧
     (∀ p ∈ (["/usr/bin", "/opt/x"] : List String), ':' ∉ p.data)) ∧
    segsOf (rebuild_path ["/usr/bin", "/opt/x"]) = ["/usr/bin", "/opt/x"] :=
  ⟨⟨by decide, by decide⟩, rebuild_roundtrip ["/usr/bin", "/opt/x"] (by decide) (by decide)⟩

/-! ## Claim C10 -/

lemma segsOf_no_sep (raw_path : String) : ∀ p ∈ segsOf raw_path, ':' ∉ p.data := by
  intro p hp
  unfold segsOf at hp
  by_cases h : raw_path = ""
  · rw [if_pos h] at hp
    simp at hp
  · rw [if_neg h] at hp
    obtain ⟨x, hx, hxp⟩ := List.mem_map.mp hp
    rw [← hxp]
    exact pySplit_no_sep ':' raw_path.data x hx

/-- **C10.** The fix session's proposed joined string never contains an
empty segment: (i) `rebuild_path` filters every empty string out of `parts`
before joining; (ii) the session's initial parts list drops all empty
segments of the raw PATH string; and therefore (iii) even when the user
performs no action at all, the proposed string re-splits exactly into the
initial (empty-free) parts — empty segments present in the input PATH
(consecutive separators) are silently removed. -/
theorem proposed_no_empty_segments :
    (∀ parts : List String,
      rebuild_path parts = rebuild_path (parts.filter (fun p => p ≠ ""))) ∧
    (∀ raw_path : String, "" ∉ initialParts raw_path) ∧
    (∀ raw_path : String,
      segsOf (rebuild_path (initialParts raw_path)) = initialParts raw_path ∧
      "" ∉ segsOf (rebuild_path (initialParts raw_path))) := by
  have hmem : ∀ (raw_path : String) (p : String), p ∈ initialParts raw_path → p ≠ "" := by
    intro raw_path p hp
    unfold initialParts at hp
    have := (List.mem_filter.mp hp).2
    simpa using this
  refine ⟨?_, ?_, ?_⟩
  · intro parts
    unfold rebuild_path
    have hff : (parts.filter (fun p => p ≠ "")).filter (fun p => p ≠ "") =
        parts.filter (fun p => p ≠ "") := by
      rw [List.filter_eq_self]
      intro a ha
      exact (List.mem_filter.mp ha).2
    rw [hff]
  · intro raw_path h
    exact hmem raw_path "" h rfl
  · intro raw_path
    have hsep : ∀ p ∈ initialParts raw_path, ':' ∉ p.data := by
      intro p hp
      unfold initialParts at hp
      exact segsOf_no_sep raw_path p (List.mem_of_mem_filter hp)
    have hrt := segsOf_rebuild (initialParts raw_path) (hmem raw_path) hsep
    refine ⟨hrt, ?_⟩
    rw [hrt]
    intro h
    exact hmem raw_path "" h rfl

/-! ## Claim C9 -/

lemma buildGo_map_rb (fs : FS) :
    ∀ (segs : List String) (seen : List (String × Nat)) (idx : Nat),
      (buildGo fs seen idx segs).map (fun e => (e.raw, isBroken e)) =
        segs.map (fun s => (s, isBrokenSeg fs s)) := by
  intro segs
  induction segs with
  | nil => intro seen idx; rfl
  | cons r rest ih =>
    intro seen idx
    simp only [buildGo, List.map_cons]
    rw [ih]
    rfl

lemma csGo_map_rb : ∀ (l : List Entry) (prior : List (String × Nat)),
    (csGo prior l).map (fun e => (e.raw, isBroken e)) =
      l.map (fun e => (e.raw, isBroken e)) := by
  intro l
  induction l with
  | nil => intro prior; rfl
  | cons e rest ih =>
    intro prior
    simp only [csGo, List.map_cons]
    rw [ih]
    congr 1
    cases findO (fun ab => shadowTest ab.1 e.normalized) prior <;> rfl

/-- The raw segment and brokenness of each entry, in order. -/
lemma analyze_map_rb (fs : FS) (raw_path : String) :
    (analyze_path fs raw_path).map (fun e => (e.raw, isBroken e)) =
      (segsOf raw_path).map (fun s => (s, isBrokenSeg fs s)) := by
  unfold analyze_path compute_shadowing
  rw [csGo_map_rb, buildGo_map_rb]

lemma brokenCount_eq_segs (fs : FS) (raw_path : String) :
    brokenCount fs raw_path = ((segsOf raw_path).filter (fun s => isBrokenSeg fs s)).length := by
  unfold brokenCount
  apply filterLenMap
  have h := congrArg (List.map Prod.snd) (analyze_map_rb fs raw_path)
  simpa [List.map_map, Function.comp] using h

/-- **C9.** For every fix-session `parts` list made of nonempty,
separator-free segments (so that snapshot positions and `parts` positions
coincide — the entry is removed "at its current position"), applying the
Remove action to a broken entry `e` of the current snapshot yields a parts
list whose rebuilt snapshot has broken count at most the prior broken count
minus one, and every broken entry of the new snapshot corresponds to an
already-broken entry of the prior snapshot with the same raw segment (same
filesystem state assumed): no previously non-broken entry appears as
broken. -/
theorem remove_action_monotonic (fs : FS) (parts : List String) (e : Entry)
    (hne : ∀ p ∈ parts, p ≠ "") (hsep : ∀ p ∈ parts, ':' ∉ p.data)
    (hmem : (analyze_path fs (rebuild_path parts)).get? (e.index - 1) = some e)
    (hbroken : isBroken e = true) :
    brokenCount fs (rebuild_path (applyRemove e parts).1) + 1 ≤
      brokenCount fs (rebuild_path parts)
    ∧ ∀ e2, e2 ∈ analyze_path fs (rebuild_path (applyRemove e parts).1) →
        isBroken e2 = true →
        ∃ e3, e3 ∈ analyze_path fs (rebuild_path parts) ∧
          e3.raw = e2.raw ∧ isBroken e3 = true := by
  have hrt : segsOf (rebuild_path parts) = parts := segsOf_rebuild parts hne hsep
  obtain ⟨raw_e, hraw_e, hidx, hr, hexp, hnorm, hex, hdir, _⟩ :=
    analyze_fields fs (rebuild_path parts) (e.index - 1) e hmem
  rw [hrt] at hraw_e
  have hbseg : isBrokenSeg fs raw_e = true := by
    have hbroken' := hbroken
    unfold isBroken at hbroken'
    rw [hex, hdir] at hbroken'
    exact hbroken'
  have hget : parts.get? (e.index - 1) = some raw_e := hraw_e
  set l' := parts.eraseIdx (e.index - 1) with hl'
  have hne' : ∀ p ∈ l', p ≠ "" := fun p hp => hne p (mem_eraseIdx_sub parts _ p hp)
  have hsep' : ∀ p ∈ l', ':' ∉ p.data := fun p hp => hsep p (mem_eraseIdx_sub parts _ p hp)
  have hrt' : segsOf (rebuild_path l') = l' := segsOf_rebuild l' hne' hsep'
  have happ : (applyRemove e parts).1 = l' := rfl
  constructor
  · rw [happ, brokenCount_eq_segs, brokenCount_eq_segs, hrt, hrt']
    have hfl := filter_length_eraseIdx (fun s => isBrokenSeg fs s) parts (e.index - 1) raw_e
      hget hbseg
    rw [← hl'] at hfl
    omega
  · intro e2 he2 hb2
    rw [happ] at he2
    have hmm : (e2.raw, isBroken e2) ∈
        (analyze_path fs (rebuild_path l')).map (fun e => (e.raw, isBroken e)) :=
      List.mem_map.mpr ⟨e2, he2, rfl⟩
    rw [analyze_map_rb, hrt'] at hmm
    obtain ⟨s, hs, hse⟩ := List.mem_map.mp hmm
    have hsp : s ∈ parts := mem_eraseIdx_sub parts _ s hs
    have hback : (s, isBrokenSeg fs s) ∈
        (segsOf (rebuild_path parts)).map (fun s => (s, isBrokenSeg fs s)) := by
      rw [hrt]
      exact List.mem_map.mpr ⟨s, hsp, rfl⟩
    rw [← analyze_map_rb] at hback
    obtain ⟨e3, he3, he3e⟩ := List.mem_map.mp hback
    have h1 : e3.raw = s := congrArg Prod.fst he3e
    have h2 : isBroken e3 = isBrokenSeg fs s := congrArg Prod.snd he3e
    have h3 : e2.raw = s := congrArg Prod.fst hse.symm
    have h4 : isBroken e2 = isBrokenSeg fs s := congrArg Prod.snd hse.symm
    refine ⟨e3, he3, by rw [h1, h3], by rw [h2, ← h4]; exact hb2⟩

/-- A model in which only `/ok` exists. -/
def fsOk : FS :=
  { expand := id, pexists := fun s => s == "/ok", isDir := fun s => s == "/ok",
    resolve := id, home := "/Users/dave", childNames := fun _ => [] }

/-- The broken second entry of the snapshot of `["/ok", "/bad"]` under `fsOk`. -/
def eW9 : Entry :=
  ⟨2, "/bad", "/bad", "/bad", false, false, "Other / Unknown", "no match", none, none⟩

/-- Witness for C9: removing the broken `/bad` from `["/ok", "/bad"]` drops
the broken count from 1 to 0 and introduces no new broken entry. -/
theorem remove_action_monotonic_witness :
    ((∀ p ∈ (["/ok", "/bad"] : List String), p ≠ "") ∧
     (∀ p ∈ (["/ok", "/bad"] : List String), ':' ∉ p.data) ∧
     (analyze_path fsOk (rebuild_path ["/ok", "/bad"])).get? (eW9.index - 1) = some eW9 ∧
     isBroken eW9 = true) ∧
    (brokenCount fsOk (rebuild_path (applyRemove eW9 ["/ok", "/bad"]).1) + 1 ≤
      brokenCount fsOk (rebuild_path ["/ok", "/bad"])
    ∧ ∀ e2, e2 ∈ analyze_path fsOk (rebuild_path (applyRemove eW9 ["/ok", "/bad"]).1) →
        isBroken e2 = true →
        ∃ e3, e3 ∈ analyze_path fsOk (rebuild_path ["/ok", "/bad"]) ∧
          e3.raw = e2.raw ∧ isBroken e3 = true) :=
  ⟨⟨by decide, by decide, by decide, by decide⟩,
   remove_action_monotonic fsOk ["/ok", "/bad"] eW9 (by decide) (by decide)
     (by decide) (by decide)⟩

/-! ## Claim C5: auxiliary lemmas -/

lemma takeAll {α : Type} : ∀ (l : List α) (n : Nat), l.length ≤ n → l.take n = l := by
  intro l
  induction l with
  | nil => intro n _; simp
  | cons a t ih =>
    intro n h
    cases n with
    | zero => simp at h
    | succ m =>
      simp only [List.take_succ_cons]
      rw [ih m (by simpa using h)]

lemma takeAppendLe {α : Type} : ∀ (l₁ l₂ : List α) (n : Nat), n ≤ l₁.length →
    (l₁ ++ l₂).take n = l₁.take n := by
  intro l₁
  induction l₁ with
  | nil =>
    intro l₂ n h
    simp at h
    simp [h]
  | cons a t ih =>
    intro l₂ n h
    cases n with
    | zero => simp
    | succ m =>
      simp only [List.cons_append, List.take_succ_cons]
      rw [ih l₂ m (by simpa using h)]

lemma takeSuccAppend {α : Type} : ∀ (l₁ : List α) (a : α) (l₂ : List α),
    (l₁ ++ a :: l₂).take (l₁.length + 1) = l₁ ++ [a] := by
  intro l₁
  induction l₁ with
  | nil => intro a l₂; simp
  | cons b t ih =>
    intro a l₂
    simp only [List.cons_append, List.length_cons, List.take_succ_cons]
    rw [ih a l₂]

lemma dedupAppend_decomp : ∀ (cs acc : List String),
    ∃ extra, dedupAppend acc cs = acc ++ extra ∧ (∀ x ∈ extra, x ∉ acc) ∧ extra.Nodup := by
  intro cs
  induction cs with
  | nil => intro acc; exact ⟨[], by simp [dedupAppend], by simp, List.nodup_nil⟩
  | cons c cs ih =>
    intro acc
    by_cases hc : c ∈ acc
    · obtain ⟨extra, he, hni, hnd⟩ := ih acc
      refine ⟨extra, ?_, hni, hnd⟩
      simp only [dedupAppend, if_pos hc]
      exact he
    · obtain ⟨extra, he, hni, hnd⟩ := ih (acc ++ [c])
      refine ⟨c :: extra, ?_, ?_, ?_⟩
      · simp only [dedupAppend, if_neg hc]
        rw [he]
        simp
      · intro x hx
        rcases List.mem_cons.mp hx with h1 | h1
        · rw [h1]; exact hc
        · intro hxa
          exact hni x h1 (by simp [hxa])
      · rw [List.nodup_cons]
        refine ⟨fun hce => hni c hce (by simp), hnd⟩

/-- The early-exit deduplicating fold underlying step 4's candidate loop. -/
def exitFold (limit : Nat) : List String → List String → LoopRes
  | [], acc => .cont acc
  | s :: ss, acc =>
    if s ∈ acc then exitFold limit ss acc
    else
      let acc' := acc ++ [s]
      if limit ≤ acc'.length then .exit acc'
      else exitFold limit ss acc'

lemma exitFold_spec (limit : Nat) : ∀ (cands acc : List String), acc.length < limit →
    exitFold limit cands acc =
      if limit ≤ (dedupAppend acc cands).length then
        .exit ((dedupAppend acc cands).take limit)
      else .cont (dedupAppend acc cands) := by
  intro cands
  induction cands with
  | nil =>
    intro acc h
    simp only [exitFold, dedupAppend]
    rw [if_neg (by omega)]
  | cons c cs ih =>
    intro acc h
    by_cases hc : c ∈ acc
    · simp only [exitFold, dedupAppend, if_pos hc]
      exact ih acc h
    · simp only [exitFold, dedupAppend, if_neg hc]
      by_cases hl : limit ≤ (acc ++ [c]).length
      · rw [if_pos hl]
        have hlim : limit = acc.length + 1 := by
          simp at hl
          omega
        obtain ⟨extra, he, _, _⟩ := dedupAppend_decomp cs (acc ++ [c])
        rw [he, if_pos (by simp; omega)]
        rw [hlim, takeAppendLe _ _ _ (by simp), takeAll _ _ (by simp)]
      · rw [if_neg hl]
        exact ih (acc ++ [c]) (by simp at hl ⊢; omega)

lemma step4CandGo_eq_exitFold (fs : FS) (limit : Nat) : ∀ (cands acc : List String),
    step4CandGo fs limit cands acc =
      exitFold limit ((cands.filter (fun c => fs.pexists c && fs.isDir c)).map fs.resolve) acc := by
  intro cands
  induction cands with
  | nil => intro acc; rfl
  | cons c cs ih =>
    intro acc
    by_cases hcd : (fs.pexists c && fs.isDir c) = true
    · have hfil : (c :: cs).filter (fun c => fs.pexists c && fs.isDir c) =
          c :: cs.filter (fun c => fs.pexists c && fs.isDir c) := by
        simp [List.filter_cons, hcd]
      rw [hfil]
      simp only [List.map_cons, step4CandGo, if_pos hcd]
      by_cases hmem : fs.resolve c ∈ acc
      · simp only [exitFold, if_pos hmem]
        exact ih acc
      · simp only [exitFold, if_neg hmem]
        by_cases hl : limit ≤ (acc ++ [fs.resolve c]).length
        · simp only [if_pos hl]
        · simp only [if_neg hl]
          exact ih (acc ++ [fs.resolve c])
    · have hfil : (c :: cs).filter (fun c => fs.pexists c && fs.isDir c) =
          cs.filter (fun c => fs.pexists c && fs.isDir c) := by
        simp [List.filter_cons, hcd]
      rw [hfil]
      simp only [step4CandGo, if_neg hcd]
      exact ih acc

lemma exitFold_append (limit : Nat) : ∀ (xs ys acc : List String),
    exitFold limit (xs ++ ys) acc =
      (match exitFold limit xs acc with
       | .exit l => .exit l
       | .cont a => exitFold limit ys a) := by
  intro xs
  induction xs with
  | nil => intro ys acc; rfl
  | cons s ss ih =>
    intro ys acc
    by_cases hs : s ∈ acc
    · simp only [List.cons_append, exitFold, if_pos hs]
      exact ih ys acc
    · simp only [List.cons_append, exitFold, if_neg hs]
      by_cases hl : limit ≤ (acc ++ [s]).length
      · simp only [if_pos hl]
      · simp only [if_neg hl]
        exact ih ys (acc ++ [s])

lemma step4Walk_eq (fs : FS) (limit : Nat) : ∀ (k : Nat) (cur : String) (acc : List String),
    step4Walk fs limit k cur acc = exitFold limit (step4Cands fs k cur) acc := by
  intro k
  induction k with
  | zero => intro cur acc; rfl
  | succ k ih =>
    intro cur acc
    have hsplit : step4Cands fs (k + 1) cur =
        (if fs.pexists cur && fs.isDir cur then
          (([joinPath cur "bin", joinPath cur "sbin"]).filter
            (fun c => fs.pexists c && fs.isDir c)).map fs.resolve
        else []) ++
        (if pathParent cur == cur then [] else step4Cands fs k (pathParent cur)) := by
      simp only [step4Cands]
      cases (pathParent cur == cur) <;> simp
    rw [hsplit, exitFold_append]
    by_cases hcd : (fs.pexists cur && fs.isDir cur) = true
    · simp only [step4Walk, if_pos hcd,
        step4CandGo_eq_exitFold fs limit [joinPath cur "bin", joinPath cur "sbin"] acc]
      cases hef : exitFold limit
          (([joinPath cur "bin", joinPath cur "sbin"].filter
            (fun c => fs.pexists c && fs.isDir c)).map fs.resolve) acc with
      | exit l => rfl
      | cont a =>
        by_cases hpar : (pathParent cur == cur) = true
        · simp only [if_pos hpar]
          rfl
        · simp only [if_neg hpar]
          exact ih (pathParent cur) a
    · simp only [step4Walk, if_neg hcd]
      by_cases hpar : (pathParent cur == cur) = true
      · simp only [if_pos hpar]
        rfl
      · simp only [if_neg hpar]
        exact ih (pathParent cur) acc

lemma dropLenAppend {α : Type} : ∀ (l₁ l₂ : List α), (l₁ ++ l₂).drop l₁.length = l₂ := by
  intro l₁
  induction l₁ with
  | nil => intro l₂; simp
  | cons a t ih => intro l₂; simp [ih l₂]

/-- The full list of step-3 matches (no early return), in child order. -/
def step3Matches (fs : FS) (anc tname : String) (names : List String) : List String :=
  (names.filter
    (fun n => fs.isDir (joinPath anc n) && (tname != "" && nameMatch tname n))).map
    (fun n => fs.resolve (joinPath anc n))

lemma step3Go_spec (fs : FS) (anc tname : String) (limit : Nat) :
    ∀ (names acc : List String), acc.length < limit →
    step3Go fs anc tname limit names acc =
      (if limit ≤ (acc ++ step3Matches fs anc tname names).length then
        .exit ((acc ++ step3Matches fs anc tname names).take limit)
      else .cont (acc ++ step3Matches fs anc tname names)) := by
  intro names
  induction names with
  | nil =>
    intro acc h
    simp only [step3Go, step3Matches, List.filter_nil, List.map_nil, List.append_nil]
    rw [if_neg (by omega)]
  | cons n ns ih =>
    intro acc h
    by_cases hdir : fs.isDir (joinPath anc n) = true
    · by_cases hnm : (tname != "" && nameMatch tname n) = true
      · have hfil : step3Matches fs anc tname (n :: ns) =
            fs.resolve (joinPath anc n) :: step3Matches fs anc tname ns := by
          simp [step3Matches, List.filter_cons, hdir, hnm]
        rw [hfil]
        have hstep : step3Go fs anc tname limit (n :: ns) acc =
            (if limit ≤ (acc ++ [fs.resolve (joinPath anc n)]).length then
              LoopRes.exit (acc ++ [fs.resolve (joinPath anc n)])
            else step3Go fs anc tname limit ns (acc ++ [fs.resolve (joinPath anc n)])) := by
          simp [step3Go, hdir, hnm]
        rw [hstep]
        by_cases hl : limit ≤ (acc ++ [fs.resolve (joinPath anc n)]).length
        · rw [if_pos hl]
          have hlim : limit = acc.length + 1 := by
            simp at hl
            omega

          rw [if_pos (by simp; omega), hlim, takeSuccAppend]
        · rw [if_neg hl]
          rw [ih (acc ++ [fs.resolve (joinPath anc n)]) (by simp at hl ⊢; omega)]
          have hassoc : (acc ++ [fs.resolve (joinPath anc n)]) ++ step3Matches fs anc tname ns =
              acc ++ fs.resolve (joinPath anc n) :: step3Matches fs anc tname ns := by
            simp
          rw [hassoc]
      · have hfil : step3Matches fs anc tname (n :: ns) = step3Matches fs anc tname ns := by
          simp [step3Matches, List.filter_cons, hnm]
        have hstep : step3Go fs anc tname limit (n :: ns) acc =
            step3Go fs anc tname limit ns acc := by
          simp [step3Go, hdir, hnm]
        rw [hfil, hstep]
        exact ih acc h
    · have hfil : step3Matches fs anc tname (n :: ns) = step3Matches fs anc tname ns := by
        simp [step3Matches, List.filter_cons, hdir]
      have hstep : step3Go fs anc tname limit (n :: ns) acc =
          step3Go fs anc tname limit ns acc := by
        simp [step3Go, hdir]
      rw [hfil, hstep]
      exact ih acc h

/-- The step-4 additions are deduplicated: none repeats a step-3 result, and
they are mutually distinct. -/
lemma suggestStep4_props (fs : FS) (broken : String) :
    (∀ x ∈ suggestStep4 fs broken, x ∉ suggestStep3 fs broken) ∧
    (suggestStep4 fs broken).Nodup := by
  by_cases hstrip : stripWS (normalize_dir fs broken) = ""
  · constructor
    · intro x hx
      simp [suggestStep4, hstrip] at hx
    · simp [suggestStep4, hstrip]
  · by_cases hbin : (pathName (normalize_dir fs broken) == "bin"
        || pathName (normalize_dir fs broken) == "sbin") = true
    · have hs4 : suggestStep4 fs broken =
          (dedupAppend (suggestStep3 fs broken)
            (step4Cands fs 4 (pathParent (normalize_dir fs broken)))).drop
            (suggestStep3 fs broken).length := by
        simp [suggestStep4, hstrip, hbin]
      obtain ⟨extra, he, hni, hnd⟩ :=
        dedupAppend_decomp (step4Cands fs 4 (pathParent (normalize_dir fs broken)))
          (suggestStep3 fs broken)
      have hex : suggestStep4 fs broken = extra := by
        rw [hs4, he, dropLenAppend]
      rw [hex]
      exact ⟨hni, hnd⟩
    · have hs4 : suggestStep4 fs broken = [] := by
        simp [suggestStep4, hstrip, hbin]
      rw [hs4]
      exact ⟨by intro x hx; simp at hx, List.nodup_nil⟩

/-- **C5, counterexample.** With `limit = 0` the early-return check
`len(suggestions) >= limit` only fires after an append, so a match slips
through: under `fsSug` (where `/a` exists with subdirectory `hello`),
`suggest_alternatives("/a/h", 0)` returns one candidate — its length exceeds
the limit, refuting "length at most limit for every non-negative limit". -/
theorem suggest_limit_cex :
    suggest_alternatives fsSug "/a/h" 0 = ["/a/hello"] ∧
    ¬((suggest_alternatives fsSug "/a/h" 0).length ≤ 0) := by
  decide

/-- **C5, amended.** For every broken raw segment string and every
**positive** limit, `suggest_alternatives` returns exactly the first `limit`
elements of the step-3 sibling-name matches under the nearest existing
ancestor (in the model's sorted child order) followed by the step-4
`bin`/`sbin` candidates found by walking up to 4 ancestor levels from the
missing path's parent; consequently the result's length is at most `limit`
and every step-3 result precedes every step-4 result. The step-4 candidates
are deduplicated against the step-3 results and against each other. -/
theorem suggest_alternatives_spec (fs : FS) (broken : String) (limit : Nat)
    (hlim : 1 ≤ limit) :
    suggest_alternatives fs broken limit =
      (suggestStep3 fs broken ++ suggestStep4 fs broken).take limit ∧
    (suggest_alternatives fs broken limit).length ≤ limit ∧
    (∀ x ∈ suggestStep4 fs broken, x ∉ suggestStep3 fs broken) ∧
    (suggestStep4 fs broken).Nodup := by
  have hprops := suggestStep4_props fs broken
  have hmain : suggest_alternatives fs broken limit =
      (suggestStep3 fs broken ++ suggestStep4 fs broken).take limit := by
    by_cases hstrip : stripWS (normalize_dir fs broken) = ""
    · simp [suggest_alternatives, suggestStep3, suggestStep4, hstrip]
    · cases hanc : findAncestor fs (normalize_dir fs broken) with
      | none =>
        have hs3 : suggestStep3 fs broken = [] := by
          simp [suggestStep3, hstrip, hanc]
        by_cases hbin : (pathName (normalize_dir fs broken) == "bin"
            || pathName (normalize_dir fs broken) == "sbin") = true
        · have hs4 : suggestStep4 fs broken =
              dedupAppend [] (step4Cands fs 4 (pathParent (normalize_dir fs broken))) := by
            simp [suggestStep4, hstrip, hbin, hs3]
          have hsug : suggest_alternatives fs broken limit =
              (match step4Walk fs limit 4 (pathParent (normalize_dir fs broken)) [] with
               | LoopRes.exit l => l
               | LoopRes.cont acc' => acc'.take limit) := by
            simp [suggest_alternatives, hstrip, hanc, hbin]
          rw [hsug, step4Walk_eq,
            exitFold_spec limit (step4Cands fs 4 (pathParent (normalize_dir fs broken))) []
              (by simp; omega)]
          rw [hs3, hs4]
          by_cases hdl : limit ≤
              (dedupAppend [] (step4Cands fs 4 (pathParent (normalize_dir fs broken)))).length
          · rw [if_pos hdl]
            simp
          · rw [if_neg hdl]
            simp
        · have hs4 : suggestStep4 fs broken = [] := by
            simp [suggestStep4, hstrip, hbin]
          have hsug : suggest_alternatives fs broken limit = List.take limit [] := by
            simp [suggest_alternatives, hstrip, hanc, hbin]
          rw [hsug, hs3, hs4]
          simp
      | some anc =>
        have hs3 : suggestStep3 fs broken =
            step3Matches fs anc (pathName (normalize_dir fs broken)) (fs.childNames anc) := by
          simp [suggestStep3, hstrip, hanc, step3Matches]
        have h3spec := step3Go_spec fs anc (pathName (normalize_dir fs broken)) limit
          (fs.childNames anc) [] (by simp; omega)
        simp only [List.nil_append] at h3spec
        by_cases hml : limit ≤
            (step3Matches fs anc (pathName (normalize_dir fs broken)) (fs.childNames anc)).length
        · rw [if_pos hml] at h3spec
          have hsug : suggest_alternatives fs broken limit =
              (step3Matches fs anc (pathName (normalize_dir fs broken))
                (fs.childNames anc)).take limit := by
            simp [suggest_alternatives, hstrip, hanc, h3spec]
          rw [hsug, hs3, takeAppendLe _ _ _ hml]
        · rw [if_neg hml] at h3spec
          by_cases hbin : (pathName (normalize_dir fs broken) == "bin"
              || pathName (normalize_dir fs broken) == "sbin") = true
          · have hs4 : suggestStep4 fs broken =
                (dedupAppend (suggestStep3 fs broken)
                  (step4Cands fs 4 (pathParent (normalize_dir fs broken)))).drop
                  (suggestStep3 fs broken).length := by
              simp [suggestStep4, hstrip, hbin]
            have hsug : suggest_alternatives fs broken limit =
                (match step4Walk fs limit 4 (pathParent (normalize_dir fs broken))
                    (step3Matches fs anc (pathName (normalize_dir fs broken))
                      (fs.childNames anc)) with
                 | LoopRes.exit l => l
                 | LoopRes.cont acc' => acc'.take limit) := by
              simp [suggest_alternatives, hstrip, hanc, h3spec, hbin]
            rw [hsug, step4Walk_eq,
              exitFold_spec limit (step4Cands fs 4 (pathParent (normalize_dir fs broken)))
                (step3Matches fs anc (pathName (normalize_dir fs broken)) (fs.childNames anc))
                (by omega)]
            obtain ⟨extra, he, _, _⟩ := dedupAppend_decomp
              (step4Cands fs 4 (pathParent (normalize_dir fs broken)))
              (step3Matches fs anc (pathName (normalize_dir fs broken)) (fs.childNames anc))
            have hcat : suggestStep3 fs broken ++ suggestStep4 fs broken =
                dedupAppend
                  (step3Matches fs anc (pathName (normalize_dir fs broken)) (fs.childNames anc))
                  (step4Cands fs 4 (pathParent (normalize_dir fs broken))) := by
              rw [hs4, hs3, he, dropLenAppend]
            rw [hcat]
            by_cases hdl : limit ≤
                (dedupAppend
                  (step3Matches fs anc (pathName (normalize_dir fs broken)) (fs.childNames anc))
                  (step4Cands fs 4 (pathParent (normalize_dir fs broken)))).length
            · rw [if_pos hdl]
            · rw [if_neg hdl]
          · have hs4 : suggestStep4 fs broken = [] := by
              simp [suggestStep4, hstrip, hbin]
            have hsug : suggest_alternatives fs broken limit =
                (step3Matches fs anc (pathName (normalize_dir fs broken))
                  (fs.childNames anc)).take limit := by
              simp [suggest_alternatives, hstrip, hanc, h3spec, hbin]
            rw [hsug, hs3, hs4]
            simp
  refine ⟨hmain, ?_, hprops.1, hprops.2⟩
  rw [hmain]
  rw [List.length_take]
  exact Nat.min_le_left _ _

/-- Witness for the amended C5 at `fsSug`, `"/a/h"`, limit 8. -/
theorem suggest_alternatives_spec_witness :
    1 ≤ 8 ∧
    (suggest_alternatives fsSug "/a/h" 8 =
      (suggestStep3 fsSug "/a/h" ++ suggestStep4 fsSug "/a/h").take 8 ∧
    (suggest_alternatives fsSug "/a/h" 8).length ≤ 8 ∧
    (∀ x ∈ suggestStep4 fsSug "/a/h", x ∉ suggestStep3 fsSug "/a/h") ∧
    (suggestStep4 fsSug "/a/h").Nodup) :=
  ⟨by decide, suggest_alternatives_spec fsSug "/a/h" 8 (by decide)⟩

end PathInspector
